import Mathlib

/-!
Verification of the wordpieces crate (danieldk/wordpieces).

The development shallowly embeds `src/word_pieces.rs`, the current engine of
the crate: the `WordPiecesBuilder` (two `BTreeMap<String, u64>` collections
filled by `insert`, which strips a leading `##` marker), the `WordPieces`
aggregate (two `fst::Map` indices), `WordPieces::longest_prefix_len` (a
byte-by-byte walk of the fst recording the most recent final state), the lazy
`WordPieceIter` returned by `split`, and the `From<&WordPieces> for
Vec<String>` reconstruction.

Modelling conventions:
* Rust strings are lists of bytes (`List Nat`); a separate UTF-8 encoder
  relates byte lists to lists of Unicode code points where a claim needs it.
* The external `fst::Map` stores a finite map from byte strings to `u64`.
  It is carried as an association list sorted by byte-lexicographic key order
  (the order in which both `BTreeMap` and `fst` streams iterate), and its
  transducer is modelled as a byte trie holding each key's output at the
  key's final node.  Distributing outputs along transitions (`out.cat`) is an
  internal compression detail of the fst crate: the accumulated output at a
  final node always telescopes to the value stored for the key, which is what
  the trie model records.
* The `u64` piece indices are `Nat`; no arithmetic is performed on them.
* A Rust panic (the `assert!` in `WordPieceIter::next`, or an out-of-bounds
  `pieces[idx]` write in the `Vec<String>` conversion) is modelled as `none` /
  a dedicated `panic` constructor.
-/

/-- Byte-lexicographic strict order on byte strings, the key order of both
`BTreeMap<String, u64>` and the fst stream. -/
def bytesLt : List Nat → List Nat → Bool
  | [], [] => false
  | [], _ :: _ => true
  | _ :: _, [] => false
  | a :: as, b :: bs => if a < b then true else if b < a then false else bytesLt as bs

/-- Association-list lookup, first binding wins (`fst::Map::get`). -/
def mapLookup : List (List Nat × Nat) → List Nat → Option Nat
  | [], _ => none
  | (k', v) :: rest, k => if k = k' then some v else mapLookup rest k

/-- `BTreeMap::insert`: replace the binding of an existing key, otherwise
insert the new binding at its sorted position. -/
def mapInsert : List (List Nat × Nat) → List Nat → Nat → List (List Nat × Nat)
  | [], k, v => [(k, v)]
  | (k', v') :: rest, k, v =>
    if k = k' then (k, v) :: rest
    else if bytesLt k k' then (k, v) :: (k', v') :: rest
    else (k', v') :: mapInsert rest k v

/-- A node of the byte transducer backing `fst::Map`: an optional output for
keys ending here, and labelled transitions to child nodes. -/
inductive Trie : Type where
  | node (final : Option Nat) (children : List (Nat × Trie)) : Trie

/-- Output of the node, `some` when the node is a final state. -/
def Trie.final : Trie → Option Nat
  | .node f _ => f

/-- Outgoing transitions of the node. -/
def Trie.children : Trie → List (Nat × Trie)
  | .node _ c => c

/-- `Node::find_input` followed by `Node::transition`: the child reached on
one byte, if the transition exists. -/
def childLookup : List (Nat × Trie) → Nat → Option Trie
  | [], _ => none
  | (b', t) :: rest, b => if b = b' then some t else childLookup rest b

/-- Replace the child for a byte, or add it when absent. -/
def childReplace : List (Nat × Trie) → Nat → Trie → List (Nat × Trie)
  | [], b, t => [(b, t)]
  | (b', t') :: rest, b, t =>
    if b = b' then (b, t) :: rest else (b', t') :: childReplace rest b t

/-- The trie with no keys. -/
def Trie.empty : Trie := .node none []

/-- Add one key with its output to the trie. -/
def Trie.insert : Trie → List Nat → Nat → Trie
  | .node _ cs, [], v => .node (some v) cs
  | .node f cs, b :: ks, v =>
    .node f (childReplace cs b (((childLookup cs b).getD Trie.empty).insert ks v))

/-- The transducer of an fst map: the trie holding every binding of the
association list. -/
def Trie.ofList (m : List (List Nat × Nat)) : Trie :=
  m.foldl (fun t p => t.insert p.1 p.2) Trie.empty

/-- Walk a whole key from the node; `some` exactly when the key is in the
trie, returning its output. -/
def Trie.findKey (t : Trie) : List Nat → Option Nat
  | [] => t.final
  | b :: ks =>
    match childLookup t.children b with
    | none => none
    | some c => c.findKey ks

/-- The loop of `WordPieces::longest_prefix_len`: consume `word` one byte at
a time from node `t`; `n` bytes are already consumed and `best` is the best
`(longest_prefix, longest_prefix_out)` recorded so far.  On a missing
transition the best so far is returned; after each taken transition a final
node updates the best to the current offset and output. -/
def longestPrefixLoop (t : Trie) (w : List Nat) (n : Nat) (best : Nat × Nat) : Nat × Nat :=
  match w with
  | [] => best
  | b :: rest =>
    match childLookup t.children b with
    | none => best
    | some c =>
      match c.final with
      | some out => longestPrefixLoop c rest (n + 1) (n + 1, out)
      | none => longestPrefixLoop c rest (n + 1) best

/-- `WordPieces::longest_prefix_len`: length of the longest key of the map
that is a prefix of `word`, with that key's output; `(0, 0)` when no
non-empty key matches (the root's own finality is never consulted). -/
def longestPrefixLen (t : Trie) (w : List Nat) : Nat × Nat :=
  longestPrefixLoop t w 0 (0, 0)

/-- `WordPieces`: the two piece indices, as the sorted association lists the
fst maps contain.  `split` walks their tries; the `Vec<String>` conversion
streams the lists. -/
structure WordPieces where
  word_initial : List (List Nat × Nat)
  continuation : List (List Nat × Nat)
deriving DecidableEq

/-- `WordPiece`: one result of the split iterator. -/
inductive WordPiece : Type where
  | found (piece : List Nat) (idx : Nat) : WordPiece
  | missing : WordPiece
deriving DecidableEq

/-- `WordPieceIter`: the splitter, the remaining word, and whether the next
piece to find is word-initial. -/
structure WordPieceIter where
  wordPieces : WordPieces
  word : List Nat
  initial : Bool
deriving DecidableEq

/-- Outcome of one `WordPieceIter::next` call: the `assert!` failure on an
empty initial word, iterator exhaustion (`None`), or a yielded item together
with the mutated iterator. -/
inductive StepResult : Type where
  | panic : StepResult
  | done : StepResult
  | yield (piece : WordPiece) (it : WordPieceIter) : StepResult
deriving DecidableEq

/-- `<WordPieceIter as Iterator>::next`.  An empty remaining word asserts
`!initial` and otherwise ends the iteration; a non-empty word is matched
against the word-initial or continuation index, yielding `Missing` (and
emptying the word) on no match, or the longest-prefix piece otherwise. -/
def WordPieceIter.next (it : WordPieceIter) : StepResult :=
  match it.word with
  | [] => if it.initial then .panic else .done
  | _ :: _ =>
    let set := if it.initial then it.wordPieces.word_initial else it.wordPieces.continuation
    let r := longestPrefixLen (Trie.ofList set) it.word
    if r.1 = 0 then
      .yield .missing ⟨it.wordPieces, [], false⟩
    else
      .yield (.found (it.word.take r.1) r.2) ⟨it.wordPieces, it.word.drop r.1, false⟩

/-- `WordPieces::split`: a fresh iterator over the word. -/
def WordPieces.split (wp : WordPieces) (word : List Nat) : WordPieceIter :=
  ⟨wp, word, true⟩

/-- Drain the iterator with explicit fuel: `none` on the `assert!` panic or
on fuel exhaustion.  `collectFuelStable` below shows that
`word.length + 1` fuel always suffices, so `WordPieceIter.collect` is the
exact meaning of `iterator.collect::<Vec<_>>()`. -/
def WordPieceIter.collectN : Nat → WordPieceIter → Option (List WordPiece)
  | 0, _ => none
  | fuel + 1, it =>
    match it.next with
    | .panic => none
    | .done => some []
    | .yield p it' => (WordPieceIter.collectN fuel it').map (p :: ·)

/-- `iterator.collect::<Vec<_>>()`: drain the iterator to a list, `none`
when the empty-word assertion fires. -/
def WordPieceIter.collect (it : WordPieceIter) : Option (List WordPiece) :=
  WordPieceIter.collectN (it.word.length + 1) it

/-- Concatenation of the texts of all `Found` results, in order. -/
def foundConcat : List WordPiece → List Nat
  | [] => []
  | .found p _ :: rest => p ++ foundConcat rest
  | .missing :: rest => foundConcat rest

/-- Is the result a `Found`? -/
def WordPiece.isFoundB : WordPiece → Bool
  | .found _ _ => true
  | .missing => false

/-- Is the result a `Missing`? -/
def WordPiece.isMissingB : WordPiece → Bool
  | .found _ _ => false
  | .missing => true

/-- Keys strictly increase along the list: the invariant of every
association list produced by `mapInsert` (as a `BTreeMap` holds it). -/
def mapKeyLt (p q : List Nat × Nat) : Prop := bytesLt p.1 q.1 = true

/-- Executable form of the sortedness invariant of a piece map. -/
def mapWFb : List (List Nat × Nat) → Bool
  | [] => true
  | p :: rest => (rest.all fun q => bytesLt p.1 q.1) && mapWFb rest

/-- A well-formed piece map: keys strictly sorted, hence unique. -/
def MapWF (m : List (List Nat × Nat)) : Prop := mapWFb m = true

instance (m : List (List Nat × Nat)) : Decidable (MapWF m) :=
  inferInstanceAs (Decidable (mapWFb m = true))

/-- `WordPiecesBuilder`: the two pending `BTreeMap` collections. -/
structure WordPiecesBuilder where
  word_initial : List (List Nat × Nat)
  continuation : List (List Nat × Nat)
deriving DecidableEq

/-- `WordPiecesBuilder::new`. -/
def WordPiecesBuilder.empty : WordPiecesBuilder := ⟨[], []⟩

/-- `piece.strip_prefix("##")`: the remainder when the piece starts with the
two-byte continuation marker (`'#'` is byte 35). -/
def stripHH : List Nat → Option (List Nat)
  | a :: b :: rest => if a = 35 ∧ b = 35 then some rest else none
  | _ => none

/-- `WordPiecesBuilder::insert`: split on the marker and store into the
matching pending collection. -/
def WordPiecesBuilder.insert (b : WordPiecesBuilder) (piece : List Nat) (idx : Nat) :
    WordPiecesBuilder :=
  match stripHH piece with
  | some stripped => ⟨b.word_initial, mapInsert b.continuation stripped idx⟩
  | none => ⟨mapInsert b.word_initial piece idx, b.continuation⟩

/-- The loop of `WordPieces::from_buf_read`: insert each line with its line
number, counting from `start`. -/
def WordPiecesBuilder.insertAll (b : WordPiecesBuilder) :
    List (List Nat) → Nat → WordPiecesBuilder
  | [], _ => b
  | l :: rest, start => (b.insert l start).insertAll rest (start + 1)

/-- `WordPiecesBuilder::build`: the two fst maps hold exactly the pending
`BTreeMap` bindings (`extend_iter` over an in-memory sorted map does not
fail). -/
def WordPiecesBuilder.build (b : WordPiecesBuilder) : WordPieces :=
  ⟨b.word_initial, b.continuation⟩

/-- `WordPieces::from_buf_read`, with the I/O shim stripped: every line has
already been read successfully. -/
def WordPieces.fromLines (lines : List (List Nat)) : WordPieces :=
  (WordPiecesBuilder.empty.insertAll lines 0).build

/-- `pieces[idx] = piece`: `none` models the out-of-bounds panic. -/
def setAt (v : List (List Nat)) (i : Nat) (x : List Nat) : Option (List (List Nat)) :=
  if i < v.length then some (v.set i x) else none

/-- Write each streamed `(piece, idx)` pair into the vector in turn. -/
def writeAll : Option (List (List Nat)) → List (List Nat × Nat) → Option (List (List Nat))
  | none, _ => none
  | some v, [] => some v
  | some v, (k, i) :: rest => writeAll (setAt v i k) rest

/-- `From<&WordPieces> for Vec<String>`: a vector of empty strings of length
`word_initial.len() + continuation.len()`, filled at position `idx` by each
word-initial piece and then by each `##`-prefixed continuation piece, in fst
stream (sorted key) order; `none` models the `pieces[idx]` panic. -/
def vecFrom (wp : WordPieces) : Option (List (List Nat)) :=
  writeAll
    (writeAll (some (List.replicate (wp.word_initial.length + wp.continuation.length) []))
      wp.word_initial)
    (wp.continuation.map fun p => (35 :: 35 :: p.1, p.2))

/-- UTF-8 encoding of one Unicode scalar value; the divisions and remainders
stand for the bit shifts and masks. -/
def utf8EncodeChar (c : Char) : List Nat :=
  if c.toNat < 128 then [c.toNat]
  else if c.toNat < 2048 then [192 + c.toNat / 64, 128 + c.toNat % 64]
  else if c.toNat < 65536 then
    [224 + c.toNat / 4096, 128 + c.toNat / 64 % 64, 128 + c.toNat % 64]
  else
    [240 + c.toNat / 262144, 128 + c.toNat / 4096 % 64, 128 + c.toNat / 64 % 64,
      128 + c.toNat % 64]

/-- UTF-8 encoding of a whole string: Rust's `str::as_bytes`. -/
def utf8Encode (cs : List Char) : List Nat :=
  (cs.map utf8EncodeChar).flatten

/-- A byte string that is valid UTF-8 — the invariant of every Rust `str`
and `String`, hence of every vocabulary piece and query word. -/
def Utf8Valid (bs : List Nat) : Prop := ∃ cs : List Char, bs = utf8Encode cs

/-- The vocabulary of the crate's `longest_prefix_used` test: word-initial
pieces `"fo"` (idx 2) and `"foo"` (idx 0); continuation pieces `"a"` (5),
`"b"` (4), `"bar"` (3), `"o"` (1), `"r"` (6), in sorted byte order. -/
def fooBarPieces : WordPieces :=
  ⟨[([102, 111], 2), ([102, 111, 111], 0)],
   [([97], 5), ([98], 4), ([98, 97, 114], 3), ([111], 1), ([114], 6)]⟩

/-- A vocabulary with word-initial piece set `{"voor"}` and a continuation
set (`{"tie"}`) containing no piece that is a prefix of `"man"`. -/
def voorPieces : WordPieces :=
  ⟨[([118, 111, 111, 114], 0)], [([116, 105, 101], 1)]⟩

/-! ### The byte-lexicographic key order of the BTreeMap and the fst -/

theorem bytesLt_irrefl : ∀ k, bytesLt k k = false
  | [] => rfl
  | _ :: as => by simp [bytesLt, bytesLt_irrefl as]

theorem bytesLt_ne {a b : List Nat} (h : bytesLt a b = true) : a ≠ b := by
  intro he
  rw [he, bytesLt_irrefl] at h
  exact Bool.false_ne_true h

theorem bytesLt_cons (x y : Nat) (xs ys : List Nat) :
    bytesLt (x :: xs) (y :: ys) = (decide (x < y) || (decide (x = y) && bytesLt xs ys)) := by
  simp only [bytesLt]
  split_ifs with h1 h2
  · simp [h1]
  · have hne : x ≠ y := by omega
    have hnlt : ¬ x < y := by omega
    simp [hne, hnlt]
  · have hxy : x = y := by omega
    simp [hxy]

theorem bytesLt_trans : ∀ (a b c : List Nat),
    bytesLt a b = true → bytesLt b c = true → bytesLt a c = true := by
  intro a
  induction a with
  | nil =>
    intro b c hab hbc
    cases b with
    | nil => simp [bytesLt] at hab
    | cons y ys =>
      cases c with
      | nil => simp [bytesLt] at hbc
      | cons z zs => simp [bytesLt]
  | cons x xs ih =>
    intro b c hab hbc
    cases b with
    | nil => simp [bytesLt] at hab
    | cons y ys =>
      cases c with
      | nil => simp [bytesLt] at hbc
      | cons z zs =>
        rw [bytesLt_cons] at hab hbc ⊢
        simp only [Bool.or_eq_true, Bool.and_eq_true, decide_eq_true_eq] at hab hbc ⊢
        rcases hab with h | ⟨he, hr⟩
        · rcases hbc with h' | ⟨he', hr'⟩
          · exact Or.inl (by omega)
          · exact Or.inl (by omega)
        · rcases hbc with h' | ⟨he', hr'⟩
          · exact Or.inl (by omega)
          · exact Or.inr ⟨by omega, ih ys zs hr hr'⟩

theorem bytesLt_total : ∀ (a b : List Nat),
    a = b ∨ bytesLt a b = true ∨ bytesLt b a = true := by
  intro a
  induction a with
  | nil =>
    intro b
    cases b with
    | nil => exact Or.inl rfl
    | cons y ys => exact Or.inr (Or.inl (by simp [bytesLt]))
  | cons x xs ih =>
    intro b
    cases b with
    | nil => exact Or.inr (Or.inr (by simp [bytesLt]))
    | cons y ys =>
      rcases Nat.lt_trichotomy x y with h | h | h
      · refine Or.inr (Or.inl ?_)
        rw [bytesLt_cons]
        simp [h]
      · subst h
        rcases ih ys with h2 | h2 | h2
        · exact Or.inl (by rw [h2])
        · refine Or.inr (Or.inl ?_)
          rw [bytesLt_cons]
          simp [h2]
        · refine Or.inr (Or.inr ?_)
          rw [bytesLt_cons]
          simp [h2]
      · refine Or.inr (Or.inr ?_)
        rw [bytesLt_cons]
        simp [h]

theorem mapWF_iff (m : List (List Nat × Nat)) : MapWF m ↔ m.Pairwise mapKeyLt := by
  induction m with
  | nil => simp [MapWF, mapWFb]
  | cons p rest ih =>
    simp [MapWF, mapWFb, List.pairwise_cons, mapKeyLt, List.all_eq_true] at ih ⊢
    rw [← ih]
    tauto

/-! ### Association-list map lemmas -/

theorem mapLookup_mapInsert (m : List (List Nat × Nat)) (k : List Nat) (v : Nat)
    (k' : List Nat) :
    mapLookup (mapInsert m k v) k' = if k' = k then some v else mapLookup m k' := by
  induction m with
  | nil => simp [mapInsert, mapLookup]
  | cons p rest ih =>
    obtain ⟨k0, v0⟩ := p
    by_cases h1 : k = k0
    · have hins : mapInsert ((k0, v0) :: rest) k v = (k, v) :: rest := by
        simp [mapInsert, h1]
      rw [hins]
      by_cases hk : k' = k
      · simp [mapLookup, hk]
      · have hk0 : ¬ k' = k0 := fun he => hk (he.trans h1.symm)
        simp [mapLookup, hk, hk0]
    · by_cases h2 : bytesLt k k0 = true
      · have hins : mapInsert ((k0, v0) :: rest) k v = (k, v) :: (k0, v0) :: rest := by
          simp [mapInsert, h1, h2]
        rw [hins]
        by_cases hk : k' = k <;> simp [mapLookup, hk]
      · have hins : mapInsert ((k0, v0) :: rest) k v = (k0, v0) :: mapInsert rest k v := by
          simp [mapInsert, h1, h2]
        rw [hins]
        by_cases hk0 : k' = k0
        · have hne : ¬ k' = k := fun he => h1 (he.symm.trans hk0)
          have hne' : ¬ k0 = k := fun he => h1 he.symm
          simp [mapLookup, hk0, hne, hne']
        · simp [mapLookup, hk0, ih]

theorem mapLookup_eq_some_mem {m : List (List Nat × Nat)} {k : List Nat} {v : Nat}
    (h : mapLookup m k = some v) : (k, v) ∈ m := by
  induction m with
  | nil => simp [mapLookup] at h
  | cons p rest ih =>
    obtain ⟨k0, v0⟩ := p
    simp only [mapLookup] at h
    split_ifs at h with h1
    · subst h1
      simp at h
      subst h
      exact List.mem_cons_self _ _
    · exact List.mem_cons_of_mem _ (ih h)

theorem mapLookup_isSome_of_mem {m : List (List Nat × Nat)} {k : List Nat} {v : Nat}
    (h : (k, v) ∈ m) : (mapLookup m k).isSome = true := by
  induction m with
  | nil => simp at h
  | cons p rest ih =>
    obtain ⟨k0, v0⟩ := p
    rcases List.mem_cons.mp h with he | hm
    · have : k = k0 := congrArg Prod.fst he
      simp [mapLookup, this]
    · by_cases hk : k = k0 <;> simp [mapLookup, hk, ih hm]

theorem mapLookup_eq_none_of_not_mem {m : List (List Nat × Nat)} {k : List Nat}
    (h : k ∉ m.map Prod.fst) : mapLookup m k = none := by
  induction m with
  | nil => simp [mapLookup]
  | cons p rest ih =>
    obtain ⟨k0, v0⟩ := p
    simp only [List.map_cons, List.mem_cons] at h
    push_neg at h
    simp [mapLookup, h.1, ih h.2]

theorem mem_mapInsert_weak {m : List (List Nat × Nat)} {k : List Nat} {v : Nat}
    {p : List Nat × Nat} (h : p ∈ mapInsert m k v) : p = (k, v) ∨ p ∈ m := by
  induction m with
  | nil => simpa [mapInsert] using h
  | cons q rest ih =>
    obtain ⟨k0, v0⟩ := q
    simp only [mapInsert] at h
    split_ifs at h with h1 h2
    · rcases List.mem_cons.mp h with rfl | hm
      · exact Or.inl rfl
      · exact Or.inr (List.mem_cons_of_mem _ hm)
    · rcases List.mem_cons.mp h with rfl | hm
      · exact Or.inl rfl
      · exact Or.inr hm
    · rcases List.mem_cons.mp h with rfl | hm
      · exact Or.inr (List.mem_cons_self _ _)
      · rcases ih hm with he | hm'
        · exact Or.inl he
        · exact Or.inr (List.mem_cons_of_mem _ hm')

theorem pairwise_mapInsert {m : List (List Nat × Nat)} (k : List Nat) (v : Nat)
    (hm : m.Pairwise mapKeyLt) : (mapInsert m k v).Pairwise mapKeyLt := by
  induction m with
  | nil => simp [mapInsert]
  | cons p rest ih =>
    obtain ⟨hp, hrest⟩ := List.pairwise_cons.mp hm
    obtain ⟨k0, v0⟩ := p
    simp only [mapInsert]
    split_ifs with h1 h2
    · subst h1
      exact List.pairwise_cons.mpr ⟨hp, hrest⟩
    · refine List.pairwise_cons.mpr ⟨?_, List.pairwise_cons.mpr ⟨hp, hrest⟩⟩
      intro q hq
      rcases List.mem_cons.mp hq with rfl | hq'
      · exact h2
      · exact bytesLt_trans _ _ _ h2 (hp q hq')
    · refine List.pairwise_cons.mpr ⟨?_, ih hrest⟩
      intro q hq
      rcases mem_mapInsert_weak hq with rfl | hq'
      · rcases bytesLt_total k k0 with he | hl | hg
        · exact absurd he h1
        · exact absurd hl h2
        · exact hg
      · exact hp q hq'

theorem mem_mapInsert {m : List (List Nat × Nat)} (hm : m.Pairwise mapKeyLt)
    (k : List Nat) (v : Nat) (p : List Nat × Nat) :
    p ∈ mapInsert m k v ↔ p = (k, v) ∨ (p ∈ m ∧ p.1 ≠ k) := by
  induction m with
  | nil => simp [mapInsert]
  | cons q rest ih =>
    obtain ⟨hq, hrest⟩ := List.pairwise_cons.mp hm
    obtain ⟨k0, v0⟩ := q
    simp only [mapInsert]
    split_ifs with h1 h2
    · subst h1
      constructor
      · intro hp
        rcases List.mem_cons.mp hp with rfl | hp'
        · exact Or.inl rfl
        · exact Or.inr ⟨List.mem_cons_of_mem _ hp',
            fun he => bytesLt_ne (hq p hp') he.symm⟩
      · intro hp
        rcases hp with rfl | ⟨hp', hne⟩
        · exact List.mem_cons_self _ _
        · rcases List.mem_cons.mp hp' with rfl | hp''
          · exact absurd rfl hne
          · exact List.mem_cons_of_mem _ hp''
    · constructor
      · intro hp
        rcases List.mem_cons.mp hp with rfl | hp'
        · exact Or.inl rfl
        · refine Or.inr ⟨hp', ?_⟩
          rcases List.mem_cons.mp hp' with rfl | hp''
          · exact fun he => bytesLt_ne h2 he.symm
          · exact fun he => bytesLt_ne (bytesLt_trans _ _ _ h2 (hq p hp'')) he.symm
      · intro hp
        rcases hp with rfl | ⟨hp', _⟩
        · exact List.mem_cons_self _ _
        · exact List.mem_cons_of_mem _ hp'
    · constructor
      · intro hp
        rcases List.mem_cons.mp hp with rfl | hp'
        · exact Or.inr ⟨List.mem_cons_self _ _, fun he => h1 he.symm⟩
        · rcases (ih hrest).mp hp' with rfl | ⟨hm', hne⟩
          · exact Or.inl rfl
          · exact Or.inr ⟨List.mem_cons_of_mem _ hm', hne⟩
      · intro hp
        rcases hp with rfl | ⟨hp', hne⟩
        · exact List.mem_cons_of_mem _ ((ih hrest).mpr (Or.inl rfl))
        · rcases List.mem_cons.mp hp' with rfl | hp''
          · exact List.mem_cons_self _ _
          · exact List.mem_cons_of_mem _ ((ih hrest).mpr (Or.inr ⟨hp'', hne⟩))

theorem length_mapInsert_of_not_mem {m : List (List Nat × Nat)} {k : List Nat} (v : Nat)
    (h : k ∉ m.map Prod.fst) : (mapInsert m k v).length = m.length + 1 := by
  induction m with
  | nil => simp [mapInsert]
  | cons p rest ih =>
    obtain ⟨k0, v0⟩ := p
    simp only [List.map_cons, List.mem_cons] at h
    push_neg at h
    simp [mapInsert, h.1, ih h.2]
    split_ifs <;> simp [ih h.2]

/-! ### Correctness of the trie model of the fst -/

theorem childLookup_childReplace (cs : List (Nat × Trie)) (b : Nat) (t : Trie)
    (b' : Nat) :
    childLookup (childReplace cs b t) b' = if b' = b then some t else childLookup cs b' := by
  induction cs with
  | nil =>
    by_cases h : b' = b <;> simp [childReplace, childLookup, h]
  | cons p rest ih =>
    obtain ⟨b0, t0⟩ := p
    by_cases h1 : b = b0
    · have hrep : childReplace ((b0, t0) :: rest) b t = (b, t) :: rest := by
        simp [childReplace, h1]
      rw [hrep]
      by_cases hb : b' = b
      · simp [childLookup, hb]
      · have hb0 : ¬ b' = b0 := fun he => hb (he.trans h1.symm)
        simp [childLookup, hb, hb0]
    · have hrep : childReplace ((b0, t0) :: rest) b t = (b0, t0) :: childReplace rest b t := by
        simp [childReplace, h1]
      rw [hrep]
      by_cases hb0 : b' = b0
      · have hne : ¬ b' = b := fun he => h1 (he.symm.trans hb0)
        have hne' : ¬ b0 = b := fun he => h1 he.symm
        simp [childLookup, hb0, hne, hne']
      · simp [childLookup, hb0, ih]

theorem findKey_empty (k : List Nat) : Trie.empty.findKey k = none := by
  cases k <;> simp [Trie.empty, Trie.findKey, Trie.final, Trie.children, childLookup]

theorem findKey_insert (t : Trie) (k : List Nat) (v : Nat) (k' : List Nat) :
    (t.insert k v).findKey k' = if k' = k then some v else t.findKey k' := by
  induction k generalizing t k' with
  | nil =>
    obtain ⟨f, cs⟩ := t
    cases k' with
    | nil => simp [Trie.insert, Trie.findKey, Trie.final]
    | cons b' ks' => simp [Trie.insert, Trie.findKey, Trie.children]
  | cons b ks ih =>
    obtain ⟨f, cs⟩ := t
    cases k' with
    | nil => simp [Trie.insert, Trie.findKey, Trie.final]
    | cons b' ks' =>
      simp only [Trie.insert, Trie.findKey, Trie.children]
      by_cases hb : b' = b
      · subst hb
        by_cases hks : ks' = ks
        · subst hks
          simp [childLookup_childReplace, ih]
        · simp only [childLookup_childReplace, if_pos rfl, ih, hks, if_neg,
            List.cons.injEq, and_false, if_false]
          cases hcl : childLookup cs b' with
          | none =>
            simp only [hcl, Option.getD_none, if_true]
            rw [ih]
            simp [hks, findKey_empty]
          | some c =>
            simp only [hcl, Option.getD_some, if_true]
            rw [ih]
            simp [hks]
      · have hcons : ¬ b' :: ks' = b :: ks := by simp [hb]
        simp [childLookup_childReplace, hb, hcons]

theorem findKey_foldl_insert (m : List (List Nat × Nat)) :
    ∀ (t : Trie) (k : List Nat), m.Pairwise mapKeyLt →
    (m.foldl (fun t p => t.insert p.1 p.2) t).findKey k =
      match mapLookup m k with
      | some v => some v
      | none => t.findKey k := by
  induction m with
  | nil => intro t k _; simp [mapLookup]
  | cons p rest ih =>
    intro t k hm
    obtain ⟨hp, hrest⟩ := List.pairwise_cons.mp hm
    obtain ⟨k0, v0⟩ := p
    simp only [List.foldl_cons]
    rw [ih _ k hrest]
    by_cases hk : k = k0
    · subst hk
      have hnot : k ∉ rest.map Prod.fst := by
        intro hmem
        obtain ⟨q, hq, hq1⟩ := List.mem_map.mp hmem
        exact bytesLt_ne (hp q hq) hq1.symm
      rw [mapLookup_eq_none_of_not_mem hnot]
      simp [mapLookup, findKey_insert]
    · have : mapLookup ((k0, v0) :: rest) k = mapLookup rest k := by
        simp [mapLookup, hk]
      rw [this]
      cases mapLookup rest k with
      | some v => simp
      | none => simp [findKey_insert, hk]

theorem findKey_ofList {m : List (List Nat × Nat)} (hm : m.Pairwise mapKeyLt)
    (k : List Nat) : (Trie.ofList m).findKey k = mapLookup m k := by
  rw [Trie.ofList, findKey_foldl_insert m Trie.empty k hm]
  cases mapLookup m k with
  | some v => simp
  | none => simp [findKey_empty]

theorem findKey_foldl_key (m : List (List Nat × Nat)) :
    ∀ (t : Trie) (k : List Nat),
    ((m.foldl (fun t p => t.insert p.1 p.2) t).findKey k).isSome = true →
    k ∈ m.map Prod.fst ∨ (t.findKey k).isSome = true := by
  induction m with
  | nil => intro t k h; exact Or.inr h
  | cons p rest ih =>
    intro t k h
    simp only [List.foldl_cons] at h
    rcases ih _ k h with hmem | hsome
    · exact Or.inl (List.mem_cons_of_mem _ hmem)
    · rw [findKey_insert] at hsome
      by_cases hk : k = p.1
      · exact Or.inl (by simp [hk])
      · rw [if_neg hk] at hsome
        exact Or.inr hsome

theorem findKey_ofList_key {m : List (List Nat × Nat)} {k : List Nat} {v : Nat}
    (h : (Trie.ofList m).findKey k = some v) : k ∈ m.map Prod.fst := by
  have h' : ((Trie.ofList m).findKey k).isSome = true := by simp [h]
  rcases findKey_foldl_key m Trie.empty k h' with hmem | hsome
  · exact hmem
  · rw [findKey_empty] at hsome
    simp at hsome

/-- Full behaviour of the `longest_prefix_len` loop: either no non-empty
prefix of `w` is a key reachable from `t` and the incoming best is returned,
or the longest such prefix (of length `j`, with output `v`) is found and the
loop returns `(n + j, v)`. -/
theorem loop_spec : ∀ (w : List Nat) (t : Trie) (n : Nat) (best : Nat × Nat),
    (longestPrefixLoop t w n best = best ∧
      ∀ j, 1 ≤ j → j ≤ w.length → t.findKey (w.take j) = none) ∨
    (∃ j v, 1 ≤ j ∧ j ≤ w.length ∧ t.findKey (w.take j) = some v ∧
      longestPrefixLoop t w n best = (n + j, v) ∧
      ∀ j', j < j' → j' ≤ w.length → t.findKey (w.take j') = none) := by
  intro w
  induction w with
  | nil =>
    intro t n best
    left
    refine ⟨rfl, ?_⟩
    intro j h1 h2
    simp at h2
    omega
  | cons b rest ih =>
    intro t n best
    cases hcl : childLookup t.children b with
    | none =>
      left
      constructor
      · simp [longestPrefixLoop, hcl]
      · intro j h1 h2
        obtain ⟨j', rfl⟩ : ∃ j', j = j' + 1 := ⟨j - 1, by omega⟩
        simp [List.take_succ_cons, Trie.findKey, hcl]
    | some c =>
      have hkey : ∀ j', t.findKey ((b :: rest).take (j' + 1)) = c.findKey (rest.take j') := by
        intro j'
        simp [List.take_succ_cons, Trie.findKey, hcl]
      cases hf : c.final with
      | some out =>
        rcases ih c (n + 1) (n + 1, out) with ⟨heq, hnone⟩ | ⟨j, v, hj1, hj2, hsome, heq, hmax⟩
        · right
          refine ⟨1, out, le_refl 1, by simp, ?_, ?_, ?_⟩
          · rw [hkey 0]
            simpa [Trie.findKey] using hf
          · simp [longestPrefixLoop, hcl, hf, heq]
          · intro j' hlt hle
            obtain ⟨j'', rfl⟩ : ∃ j'', j' = j'' + 1 := ⟨j' - 1, by omega⟩
            rw [hkey]
            exact hnone j'' (by omega) (by simp at hle; omega)
        · right
          refine ⟨j + 1, v, by omega, by simp; omega, ?_, ?_, ?_⟩
          · rw [hkey]
            exact hsome
          · have harith : n + 1 + j = n + (j + 1) := by omega
            simp [longestPrefixLoop, hcl, hf, heq, harith]
          · intro j' hlt hle
            obtain ⟨j'', rfl⟩ : ∃ j'', j' = j'' + 1 := ⟨j' - 1, by omega⟩
            rw [hkey]
            exact hmax j'' (by omega) (by simp at hle; omega)
      | none =>
        rcases ih c (n + 1) best with ⟨heq, hnone⟩ | ⟨j, v, hj1, hj2, hsome, heq, hmax⟩
        · left
          constructor
          · simp [longestPrefixLoop, hcl, hf, heq]
          · intro j h1 h2
            obtain ⟨j', rfl⟩ : ∃ j', j = j' + 1 := ⟨j - 1, by omega⟩
            rw [hkey]
            cases j' with
            | zero => simpa [Trie.findKey] using hf
            | succ j'' => exact hnone (j'' + 1) (by omega) (by simp at h2; omega)
        · right
          refine ⟨j + 1, v, by omega, by simp; omega, ?_, ?_, ?_⟩
          · rw [hkey]
            exact hsome
          · have harith : n + 1 + j = n + (j + 1) := by omega
            simp [longestPrefixLoop, hcl, hf, heq, harith]
          · intro j' hlt hle
            obtain ⟨j'', rfl⟩ : ∃ j'', j' = j'' + 1 := ⟨j' - 1, by omega⟩
            rw [hkey]
            exact hmax j'' (by omega) (by simp at hle; omega)

/-- Claim C2: on any well-formed piece map, `longest_prefix_len` returns
`(0, 0)` when no key of the map is a non-empty prefix of the word, and
otherwise the byte length of the single longest key that is a prefix of the
word together with the index stored for that key. -/
theorem claim_C2 (m : List (List Nat × Nat)) (hm : MapWF m) (w : List Nat) :
    ((∀ k v, (k, v) ∈ m → k = [] ∨ ¬ k <+: w) →
      longestPrefixLen (Trie.ofList m) w = (0, 0)) ∧
    ((∃ k v, (k, v) ∈ m ∧ k ≠ [] ∧ k <+: w) →
      ∃ k v, (k, v) ∈ m ∧ k ≠ [] ∧ k <+: w ∧
        longestPrefixLen (Trie.ofList m) w = (k.length, v) ∧
        ∀ k' v', (k', v') ∈ m → k' ≠ [] → k' <+: w → k'.length ≤ k.length) := by
  have hpair : m.Pairwise mapKeyLt := (mapWF_iff m).mp hm
  have hfind : ∀ k, (Trie.ofList m).findKey k = mapLookup m k := findKey_ofList hpair
  rcases loop_spec w (Trie.ofList m) 0 (0, 0) with ⟨heq, hnone⟩ | ⟨j, v, hj1, hj2, hsome, heq, hmax⟩
  · constructor
    · intro _
      simpa [longestPrefixLen] using heq
    · rintro ⟨k, v, hkm, hk0, hkw⟩
      exfalso
      have hj1 : 1 ≤ k.length := by
        cases k with
        | nil => exact absurd rfl hk0
        | cons a l => simp
      have htake : w.take k.length = k := (List.prefix_iff_eq_take.mp hkw).symm
      have := hnone k.length hj1 hkw.length_le
      rw [htake, hfind] at this
      have hsome := mapLookup_isSome_of_mem hkm
      rw [this] at hsome
      simp at hsome
  · have hmem : (w.take j, v) ∈ m := by
      have := hsome
      rw [hfind] at this
      exact mapLookup_eq_some_mem this
    have hlen : (w.take j).length = j := by
      simp [List.length_take]
      omega
    constructor
    · intro hall
      exfalso
      rcases hall (w.take j) v hmem with h0 | hnpre
      · rw [h0] at hlen
        simp at hlen
        omega
      · exact hnpre (List.take_prefix j w)
    · intro _
      refine ⟨w.take j, v, hmem, ?_, List.take_prefix j w, ?_, ?_⟩
      · intro h0
        rw [h0] at hlen
        simp at hlen
        omega
      · rw [hlen]
        simpa [longestPrefixLen] using heq
      · intro k' v' hm' hne' hpre'
        rw [hlen]
        by_contra hlt
        push_neg at hlt
        have hj1' : 1 ≤ k'.length := by
          cases k' with
          | nil => exact absurd rfl hne'
          | cons a l => simp
        have htake : w.take k'.length = k' := (List.prefix_iff_eq_take.mp hpre').symm
        have := hmax k'.length hlt hpre'.length_le
        rw [htake, hfind] at this
        have hsome' := mapLookup_isSome_of_mem hm'
        rw [this] at hsome'
        simp at hsome'

/-- Witness for C2 at the word-initial map of the crate's
`longest_prefix_used` test and the word `"foobar"`. -/
theorem claim_C2_witness :
    MapWF [([102, 111], 2), ([102, 111, 111], 0)] ∧
    ((∃ k v, (k, v) ∈ [([102, 111], 2), ([102, 111, 111], 0)] ∧ k ≠ [] ∧
        k <+: [102, 111, 111, 98, 97, 114]) →
      ∃ k v, (k, v) ∈ [([102, 111], 2), ([102, 111, 111], 0)] ∧ k ≠ [] ∧
        k <+: [102, 111, 111, 98, 97, 114] ∧
        longestPrefixLen (Trie.ofList [([102, 111], 2), ([102, 111, 111], 0)])
          [102, 111, 111, 98, 97, 114] = (k.length, v) ∧
        ∀ k' v', (k', v') ∈ [([102, 111], 2), ([102, 111, 111], 0)] → k' ≠ [] →
          k' <+: [102, 111, 111, 98, 97, 114] → k'.length ≤ k.length) :=
  ⟨by decide, (claim_C2 _ (by decide) _).2⟩

/-! ### Behaviour of the split iterator -/

theorem next_panic_iff {it : WordPieceIter} :
    it.next = .panic ↔ it.word = [] ∧ it.initial = true := by
  cases hw : it.word with
  | nil =>
    cases hi : it.initial <;> simp [WordPieceIter.next, hw, hi]
  | cons b rest =>
    simp only [WordPieceIter.next, hw]
    constructor
    · intro h
      split_ifs at h
    · rintro ⟨h, _⟩
      simp at h

theorem next_done_iff {it : WordPieceIter} :
    it.next = .done ↔ it.word = [] ∧ it.initial = false := by
  cases hw : it.word with
  | nil =>
    cases hi : it.initial <;> simp [WordPieceIter.next, hw, hi]
  | cons b rest =>
    simp only [WordPieceIter.next, hw]
    constructor
    · intro h
      split_ifs at h
    · rintro ⟨h, _⟩
      simp at h

theorem next_yield_cases {it it' : WordPieceIter} {p : WordPiece}
    (h : it.next = .yield p it') :
    it.word ≠ [] ∧ it'.wordPieces = it.wordPieces ∧ it'.initial = false ∧
    ((p = WordPiece.missing ∧ it'.word = [] ∧
       (longestPrefixLen (Trie.ofList (if it.initial = true then it.wordPieces.word_initial
         else it.wordPieces.continuation)) it.word).1 = 0) ∨
     (∃ len i, len ≠ 0 ∧
       longestPrefixLen (Trie.ofList (if it.initial = true then it.wordPieces.word_initial
         else it.wordPieces.continuation)) it.word = (len, i) ∧
       p = WordPiece.found (it.word.take len) i ∧ it'.word = it.word.drop len)) := by
  cases hw : it.word with
  | nil =>
    cases hi : it.initial <;> simp [WordPieceIter.next, hw, hi] at h
  | cons b rest =>
    simp only [WordPieceIter.next, hw] at h
    by_cases hz :
        (longestPrefixLen (Trie.ofList (if it.initial = true then it.wordPieces.word_initial
          else it.wordPieces.continuation)) (b :: rest)).1 = 0
    · rw [if_pos hz] at h
      cases h
      exact ⟨by simp, rfl, rfl, Or.inl ⟨rfl, rfl, hz⟩⟩
    · rw [if_neg hz] at h
      cases h
      exact ⟨by simp, rfl, rfl, Or.inr ⟨_, _, hz, rfl, rfl, rfl⟩⟩

theorem next_yield_word_lt {it it' : WordPieceIter} {p : WordPiece}
    (h : it.next = .yield p it') : it'.word.length < it.word.length := by
  obtain ⟨hw, _, _, hcase⟩ := next_yield_cases h
  have hpos : 0 < it.word.length := List.length_pos.mpr hw
  rcases hcase with ⟨_, hword, _⟩ | ⟨len, i, hlen, _, _, hword⟩
  · rw [hword]
    simpa using hpos
  · rw [hword, List.length_drop]
    omega

theorem collectN_succ_cases {fuel : Nat} {it : WordPieceIter} {res : List WordPiece}
    (h : WordPieceIter.collectN (fuel + 1) it = some res) :
    (it.next = .done ∧ res = []) ∨
    (∃ p it' res', it.next = .yield p it' ∧
      WordPieceIter.collectN fuel it' = some res' ∧ res = p :: res') := by
  cases hn : it.next with
  | panic =>
    simp only [WordPieceIter.collectN, hn] at h
    simp at h
  | done =>
    simp only [WordPieceIter.collectN, hn] at h
    simp at h
    exact Or.inl ⟨rfl, h⟩
  | yield p it' =>
    simp only [WordPieceIter.collectN, hn] at h
    cases hc : WordPieceIter.collectN fuel it' with
    | none => rw [hc] at h; simp at h
    | some res' =>
      rw [hc] at h
      simp at h
      exact Or.inr ⟨p, it', res', rfl, hc, h.symm⟩

theorem collectN_done_word {fuel : Nat} {it : WordPieceIter} {res : List WordPiece}
    (hw : it.word = []) (hi : it.initial = false)
    (h : WordPieceIter.collectN fuel it = some res) : res = [] := by
  cases fuel with
  | zero => simp [WordPieceIter.collectN] at h
  | succ n =>
    rcases collectN_succ_cases h with ⟨_, hres⟩ | ⟨p, it', res', hn, _, _⟩
    · exact hres
    · rw [next_done_iff.mpr ⟨hw, hi⟩] at hn
      cases hn

/-- Fuel above `word.length` is irrelevant: the iterator finishes within
`word.length + 1` steps, so the fueled drain is the real `collect`. -/
theorem collectFuelStable : ∀ (f1 f2 : Nat) (it : WordPieceIter),
    it.word.length < f1 → it.word.length < f2 →
    WordPieceIter.collectN f1 it = WordPieceIter.collectN f2 it := by
  intro f1
  induction f1 with
  | zero => intro f2 it h1 _; omega
  | succ n ih =>
    intro f2 it h1 h2
    cases f2 with
    | zero => omega
    | succ m =>
      cases hn : it.next with
      | panic => simp only [WordPieceIter.collectN, hn]
      | done => simp only [WordPieceIter.collectN, hn]
      | yield p it' =>
        have hlt := next_yield_word_lt hn
        have heq := ih m it' (by omega) (by omega)
        simp only [WordPieceIter.collectN, hn, heq]

theorem collectN_isSome : ∀ (fuel : Nat) (it : WordPieceIter), it.initial = false →
    it.word.length < fuel → (WordPieceIter.collectN fuel it).isSome = true := by
  intro fuel
  induction fuel with
  | zero => intro it _ h; omega
  | succ n ih =>
    intro it hinit h
    cases hn : it.next with
    | panic =>
      obtain ⟨_, hi⟩ := next_panic_iff.mp hn
      rw [hinit] at hi
      cases hi
    | done => simp [WordPieceIter.collectN, hn]
    | yield p it' =>
      obtain ⟨_, _, hinit', _⟩ := next_yield_cases hn
      have hlt := next_yield_word_lt hn
      have hs := ih it' hinit' (by omega)
      cases hcc : WordPieceIter.collectN n it' with
      | none => rw [hcc] at hs; simp at hs
      | some r => simp [WordPieceIter.collectN, hn, hcc]

theorem collect_isSome_of_word {it : WordPieceIter} (hw : it.word ≠ []) :
    (it.collect).isSome = true := by
  rw [WordPieceIter.collect]
  cases hn : it.next with
  | panic => exact absurd (next_panic_iff.mp hn).1 hw
  | done => simp [WordPieceIter.collectN, hn]
  | yield p it' =>
    obtain ⟨_, _, hinit', _⟩ := next_yield_cases hn
    have hlt := next_yield_word_lt hn
    have hs := collectN_isSome it.word.length it' hinit' (by omega)
    cases hcc : WordPieceIter.collectN it.word.length it' with
    | none => rw [hcc] at hs; simp at hs
    | some r => simp [WordPieceIter.collectN, hn, hcc]

theorem collectN_missing_last : ∀ (fuel : Nat) (it : WordPieceIter) (res : List WordPiece),
    WordPieceIter.collectN fuel it = some res → WordPiece.missing ∈ res →
    ∃ r', res = r' ++ [WordPiece.missing] ∧ WordPiece.missing ∉ r' := by
  intro fuel
  induction fuel with
  | zero => intro it res h; simp [WordPieceIter.collectN] at h
  | succ n ih =>
    intro it res h hmem
    rcases collectN_succ_cases h with ⟨_, rfl⟩ | ⟨p, it', res', hn, hc, rfl⟩
    · simp at hmem
    · obtain ⟨_, _, hinit', hcase⟩ := next_yield_cases hn
      rcases hcase with ⟨rfl, hword, _⟩ | ⟨len, i, hlen, heq, rfl, hword⟩
      · have : res' = [] := collectN_done_word hword hinit' hc
        subst this
        exact ⟨[], rfl, by simp⟩
      · have hmem' : WordPiece.missing ∈ res' := by
          rcases List.mem_cons.mp hmem with he | h'
          · cases he
          · exact h'
        obtain ⟨r', rfl, hnot⟩ := ih it' res' hc hmem'
        refine ⟨WordPiece.found (it.word.take len) i :: r', by simp, ?_⟩
        intro hin
        rcases List.mem_cons.mp hin with he | h'
        · cases he
        · exact hnot h'

theorem collectN_concat : ∀ (fuel : Nat) (it : WordPieceIter) (res : List WordPiece),
    WordPieceIter.collectN fuel it = some res →
    (foundConcat res <+: it.word) ∧
    (WordPiece.missing ∉ res → foundConcat res = it.word) ∧
    (∀ j, foundConcat (res.take j) <+: it.word) := by
  intro fuel
  induction fuel with
  | zero => intro it res h; simp [WordPieceIter.collectN] at h
  | succ n ih =>
    intro it res h
    rcases collectN_succ_cases h with ⟨hdone, rfl⟩ | ⟨p, it', res', hn, hc, rfl⟩
    · obtain ⟨hword, _⟩ := next_done_iff.mp hdone
      refine ⟨by simp [foundConcat], fun _ => by simp [foundConcat, hword], ?_⟩
      intro j
      simp [foundConcat]
    · obtain ⟨hwne, _, hinit', hcase⟩ := next_yield_cases hn
      rcases hcase with ⟨rfl, hword, _⟩ | ⟨len, i, hlen, heq, rfl, hword⟩
      · have : res' = [] := collectN_done_word hword hinit' hc
        subst this
        refine ⟨by simp [foundConcat], fun hni => absurd (by simp) hni, ?_⟩
        intro j
        cases j with
        | zero => simp [foundConcat]
        | succ j' => simp [foundConcat]
      · obtain ⟨hpre, hfull, htake⟩ := ih it' res' hc
        rw [hword] at hpre hfull htake
        have hsplit : it.word.take len ++ it.word.drop len = it.word :=
          List.take_append_drop len it.word
        refine ⟨?_, ?_, ?_⟩
        · show it.word.take len ++ foundConcat res' <+: it.word
          have happ := (List.prefix_append_right_inj (it.word.take len)).mpr hpre
          rw [hsplit] at happ
          exact happ
        · intro hni
          have hni' : WordPiece.missing ∉ res' := fun h' => hni (List.mem_cons_of_mem _ h')
          show it.word.take len ++ foundConcat res' = it.word
          rw [hfull hni', hsplit]
        · intro j
          cases j with
          | zero => simp [foundConcat]
          | succ j' =>
            show it.word.take len ++ foundConcat (res'.take j') <+: it.word
            have happ := (List.prefix_append_right_inj (it.word.take len)).mpr (htake j')
            rw [hsplit] at happ
            exact happ

theorem collectN_counts : ∀ (fuel : Nat) (it : WordPieceIter) (res : List WordPiece),
    WordPieceIter.collectN fuel it = some res →
    res.countP WordPiece.isFoundB ≤ it.word.length ∧
    res.countP WordPiece.isMissingB ≤ 1 ∧
    res.length ≤ it.word.length + 1 := by
  intro fuel
  induction fuel with
  | zero => intro it res h; simp [WordPieceIter.collectN] at h
  | succ n ih =>
    intro it res h
    rcases collectN_succ_cases h with ⟨_, rfl⟩ | ⟨p, it', res', hn, hc, rfl⟩
    · simp
    · obtain ⟨hwne, _, hinit', hcase⟩ := next_yield_cases hn
      have hpos : 0 < it.word.length := List.length_pos.mpr hwne
      obtain ⟨h1, h2, h3⟩ := ih it' res' hc
      rcases hcase with ⟨rfl, hword, _⟩ | ⟨len, i, hlen, heq, rfl, hword⟩
      · have : res' = [] := collectN_done_word hword hinit' hc
        subst this
        have e1 : ([WordPiece.missing] : List WordPiece).countP WordPiece.isFoundB = 0 := by
          simp [List.countP_cons, WordPiece.isFoundB]
        have e2 : ([WordPiece.missing] : List WordPiece).countP WordPiece.isMissingB = 1 := by
          simp [List.countP_cons, WordPiece.isMissingB]
        rw [e1, e2]
        refine ⟨by omega, by omega, by simp⟩
      · rw [hword, List.length_drop] at h1 h3
        have e1 : (WordPiece.found (it.word.take len) i :: res').countP WordPiece.isFoundB =
            res'.countP WordPiece.isFoundB + 1 := by
          simp [List.countP_cons, WordPiece.isFoundB]
        have e2 : (WordPiece.found (it.word.take len) i :: res').countP WordPiece.isMissingB =
            res'.countP WordPiece.isMissingB := by
          simp [List.countP_cons, WordPiece.isMissingB]
        rw [e1, e2]
        refine ⟨by omega, by omega, by simp; omega⟩

/-- Claim C1: with word-initial pieces `{"fo", "foo"}` and continuation
pieces `{"o", "bar", "b", "a", "r"}`, `split("foobar")` yields exactly
`Found("foo")` (idx 0) then `Found("bar")` (idx 3), and never `Found("fo")`
as its first result. -/
theorem claim_C1 :
    (fooBarPieces.split [102, 111, 111, 98, 97, 114]).collect =
      some [WordPiece.found [102, 111, 111] 0, WordPiece.found [98, 97, 114] 3] ∧
    ¬ ∃ i rest, (fooBarPieces.split [102, 111, 111, 98, 97, 114]).collect =
      some (WordPiece.found [102, 111] i :: rest) := by
  have hres : (fooBarPieces.split [102, 111, 111, 98, 97, 114]).collect =
      some [WordPiece.found [102, 111, 111] 0, WordPiece.found [98, 97, 114] 3] := by
    decide
  refine ⟨hres, ?_⟩
  rintro ⟨i, rest, h⟩
  rw [hres] at h
  simp at h

/-- Claim C3: with word-initial pieces `{"voor"}` and no continuation piece
matching a prefix of `"man"`, `split("voorman")` yields exactly
`Found("voor")` then `Missing`; and in general, once a split sequence
produces `Missing` it is the final result — the unconsumed remainder is
abandoned with no backtracking. -/
theorem claim_C3 :
    (voorPieces.split [118, 111, 111, 114, 109, 97, 110]).collect =
      some [WordPiece.found [118, 111, 111, 114] 0, WordPiece.missing] ∧
    ∀ (it : WordPieceIter) (res : List WordPiece), it.collect = some res →
      WordPiece.missing ∈ res →
      ∃ r', res = r' ++ [WordPiece.missing] ∧ WordPiece.missing ∉ r' := by
  constructor
  · decide
  · intro it res h hmem
    exact collectN_missing_last _ it res h hmem

/-- Witness for the general part of C3, at the `"voorman"` split itself. -/
theorem claim_C3_witness :
    ∃ r', [WordPiece.found [118, 111, 111, 114] 0, WordPiece.missing] =
        r' ++ [WordPiece.missing] ∧ WordPiece.missing ∉ r' :=
  claim_C3.2 (voorPieces.split [118, 111, 111, 114, 109, 97, 110]) _ (by decide) (by decide)

/-- Claim C4: splitting the empty word fires the `assert!` (modelled as the
`panic` outcome), and for every non-empty word draining the split iterator
never panics. -/
theorem claim_C4 (wp : WordPieces) (w : List Nat) (hw : w ≠ []) :
    (wp.split []).next = .panic ∧ ((wp.split w).collect).isSome = true := by
  constructor
  · rfl
  · exact collect_isSome_of_word hw

/-- Witness for C4 at the test vocabulary and the word `"f"`. -/
theorem claim_C4_witness :
    ([102] : List Nat) ≠ [] ∧
    ((fooBarPieces.split []).next = .panic ∧
      ((fooBarPieces.split [102]).collect).isSome = true) :=
  ⟨by decide, claim_C4 fooBarPieces [102] (by decide)⟩

/-- Claim C8: the concatenation of all `Found` piece texts of a split, in
order, is a prefix of the word, and equals the word exactly when no
`Missing` was produced. -/
theorem claim_C8 (wp : WordPieces) (w : List Nat) (res : List WordPiece) (_hw : w ≠ [])
    (h : (wp.split w).collect = some res) :
    foundConcat res <+: w ∧ (WordPiece.missing ∉ res → foundConcat res = w) := by
  rw [WordPieceIter.collect] at h
  have hc := collectN_concat _ _ _ h
  exact ⟨hc.1, hc.2.1⟩

/-- Witness for C8 at the `"foobar"` split. -/
theorem claim_C8_witness :
    foundConcat [WordPiece.found [102, 111, 111] 0, WordPiece.found [98, 97, 114] 3] <+:
        [102, 111, 111, 98, 97, 114] ∧
      (WordPiece.missing ∉
          [WordPiece.found [102, 111, 111] 0, WordPiece.found [98, 97, 114] 3] →
        foundConcat [WordPiece.found [102, 111, 111] 0, WordPiece.found [98, 97, 114] 3] =
          [102, 111, 111, 98, 97, 114]) :=
  claim_C8 fooBarPieces [102, 111, 111, 98, 97, 114] _ (by decide) (by decide)

/-- Claim C9: every split sequence is finite — at most `word.length` `Found`
results and at most one `Missing`, hence at most `word.length + 1` results
in total — and the iterator is fused: once the remaining word is empty (and
the initial flag cleared by the first step), `next` returns `None` forever. -/
theorem claim_C9 (wp : WordPieces) (w : List Nat) (res : List WordPiece) (_hw : w ≠ [])
    (h : (wp.split w).collect = some res) :
    res.countP WordPiece.isFoundB ≤ w.length ∧
    res.countP WordPiece.isMissingB ≤ 1 ∧
    res.length ≤ w.length + 1 ∧
    (∀ it : WordPieceIter, it.word = [] → it.initial = false → it.next = .done) := by
  rw [WordPieceIter.collect] at h
  have hc := collectN_counts _ _ _ h
  exact ⟨hc.1, hc.2.1, hc.2.2, fun it h1 h2 => next_done_iff.mpr ⟨h1, h2⟩⟩

/-- Witness for C9 at the `"foobar"` split. -/
theorem claim_C9_witness :
    ([WordPiece.found [102, 111, 111] 0,
        WordPiece.found [98, 97, 114] 3] : List WordPiece).countP WordPiece.isFoundB ≤ 6 ∧
    ([WordPiece.found [102, 111, 111] 0,
        WordPiece.found [98, 97, 114] 3] : List WordPiece).countP WordPiece.isMissingB ≤ 1 ∧
    ([WordPiece.found [102, 111, 111] 0,
        WordPiece.found [98, 97, 114] 3] : List WordPiece).length ≤ 6 + 1 ∧
    (∀ it : WordPieceIter, it.word = [] → it.initial = false → it.next = .done) :=
  claim_C9 fooBarPieces [102, 111, 111, 98, 97, 114] _ (by decide) (by decide)

/-! ### The builder and the vector reconstruction -/

theorem stripHH_some : ∀ {p s : List Nat}, stripHH p = some s → p = 35 :: 35 :: s := by
  intro p s h
  match p with
  | [] => simp [stripHH] at h
  | [a] => simp [stripHH] at h
  | a :: b :: rest =>
    simp only [stripHH] at h
    split_ifs at h with hab
    · simp at h
      rw [hab.1, hab.2, h]

theorem keys_mapInsert {m : List (List Nat × Nat)} {k : List Nat} {v : Nat}
    {k' : List Nat} (h : k' ∈ (mapInsert m k v).map Prod.fst) :
    k' = k ∨ k' ∈ m.map Prod.fst := by
  obtain ⟨p, hp, hp1⟩ := List.mem_map.mp h
  rcases mem_mapInsert_weak hp with rfl | hm
  · exact Or.inl hp1.symm
  · exact Or.inr (List.mem_map.mpr ⟨p, hm, hp1⟩)

/-- Claim C7: `insert` classifies a piece by the `##` marker — stripping the
marker and storing in the continuation map when present, storing the text
unchanged in the word-initial map otherwise — and within a class a second
insert with the same (post-strip) text silently overwrites the index, so the
last-inserted index wins while every other binding is untouched. -/
theorem claim_C7 (b : WordPiecesBuilder) (piece : List Nat) (idx : Nat) :
    (stripHH piece = none →
      (b.insert piece idx).continuation = b.continuation ∧
      (b.insert piece idx).word_initial = mapInsert b.word_initial piece idx ∧
      mapLookup (b.insert piece idx).word_initial piece = some idx ∧
      ∀ k', k' ≠ piece → mapLookup (b.insert piece idx).word_initial k' =
        mapLookup b.word_initial k') ∧
    (∀ s, stripHH piece = some s →
      piece = 35 :: 35 :: s ∧
      (b.insert piece idx).word_initial = b.word_initial ∧
      (b.insert piece idx).continuation = mapInsert b.continuation s idx ∧
      mapLookup (b.insert piece idx).continuation s = some idx ∧
      ∀ k', k' ≠ s → mapLookup (b.insert piece idx).continuation k' =
        mapLookup b.continuation k') := by
  constructor
  · intro hs
    simp only [WordPiecesBuilder.insert, hs]
    refine ⟨trivial, trivial, ?_, ?_⟩
    · rw [mapLookup_mapInsert]
      simp
    · intro k' hk'
      rw [mapLookup_mapInsert, if_neg hk']
  · intro s hs
    simp only [WordPiecesBuilder.insert, hs]
    refine ⟨stripHH_some hs, trivial, trivial, ?_, ?_⟩
    · rw [mapLookup_mapInsert]
      simp
    · intro k' hk'
      rw [mapLookup_mapInsert, if_neg hk']

/-- Witness for C7: inserting `"##a"` (idx 7) into the empty builder, then
`"##a"` again (idx 9): the piece is stored stripped in the continuation map
and the second index wins. -/
theorem claim_C7_witness :
    ((WordPiecesBuilder.empty.insert [35, 35, 97] 7).insert [35, 35, 97] 9).word_initial =
        (WordPiecesBuilder.empty.insert [35, 35, 97] 7).word_initial ∧
    mapLookup
        ((WordPiecesBuilder.empty.insert [35, 35, 97] 7).insert [35, 35, 97] 9).continuation
        [97] = some 9 :=
  ⟨((claim_C7 (WordPiecesBuilder.empty.insert [35, 35, 97] 7) [35, 35, 97] 9).2 [97]
      (by decide)).2.1,
   ((claim_C7 (WordPiecesBuilder.empty.insert [35, 35, 97] 7) [35, 35, 97] 9).2 [97]
      (by decide)).2.2.2.1⟩

theorem writeAll_nil : ∀ (es : List (List Nat × Nat)), writeAll none es = none := by
  intro es
  cases es <;> rfl

theorem writeAll_length : ∀ (es : List (List Nat × Nat)) (v out : List (List Nat)),
    writeAll (some v) es = some out → out.length = v.length := by
  intro es
  induction es with
  | nil =>
    intro v out h
    simp [writeAll] at h
    rw [h]
  | cons p rest ih =>
    intro v out h
    obtain ⟨k, i⟩ := p
    simp only [writeAll] at h
    by_cases hi : i < v.length
    · rw [setAt, if_pos hi] at h
      have := ih _ _ h
      rw [this, List.length_set]
    · rw [setAt, if_neg hi, writeAll_nil] at h
      cases h

theorem writeAll_none_iff : ∀ (es : List (List Nat × Nat)) (v : List (List Nat)),
    writeAll (some v) es = none ↔ ∃ p ∈ es, ¬ p.2 < v.length := by
  intro es
  induction es with
  | nil =>
    intro v
    simp [writeAll]
  | cons p rest ih =>
    intro v
    obtain ⟨k, i⟩ := p
    simp only [writeAll]
    by_cases hi : i < v.length
    · rw [setAt, if_pos hi, ih]
      constructor
      · rintro ⟨q, hq, hlt⟩
        exact ⟨q, List.mem_cons_of_mem _ hq, by rwa [List.length_set] at hlt⟩
      · rintro ⟨q, hq, hlt⟩
        rcases List.mem_cons.mp hq with rfl | hq'
        · exact absurd hi hlt
        · exact ⟨q, hq', by rwa [List.length_set]⟩
    · rw [setAt, if_neg hi, writeAll_nil]
      simp only [true_iff]
      exact ⟨(k, i), List.mem_cons_self _ _, hi⟩

/-- Claim C10: the `Vec<String>` reconstruction allocates a vector of length
`word_initial.len() + continuation.len()` and writes each piece at its
stored index; it panics exactly when some stored index is at least that
total, and succeeds (with a vector of that length) exactly when every stored
index is below it. -/
theorem claim_C10 (wp : WordPieces) :
    ((vecFrom wp).isSome = true ↔
      ∀ p ∈ wp.word_initial ++ wp.continuation,
        p.2 < wp.word_initial.length + wp.continuation.length) ∧
    (∀ out, vecFrom wp = some out →
      out.length = wp.word_initial.length + wp.continuation.length) := by
  set n := wp.word_initial.length + wp.continuation.length with hn
  have hv0 : (List.replicate n ([] : List Nat)).length = n := List.length_replicate n []
  constructor
  · cases h1 : writeAll (some (List.replicate n [])) wp.word_initial with
    | none =>
      obtain ⟨p, hp, hlt⟩ := (writeAll_none_iff _ _).mp h1
      rw [hv0] at hlt
      constructor
      · intro hs
        rw [vecFrom, h1, writeAll_nil] at hs
        simp at hs
      · intro hall
        exact absurd (hall p (List.mem_append_left _ hp)) hlt
    | some v1 =>
      have hlen1 : v1.length = n := by
        have := writeAll_length _ _ _ h1
        rwa [hv0] at this
      have hes1 : ∀ p ∈ wp.word_initial, p.2 < n := by
        intro p hp
        by_contra hge
        have : writeAll (some (List.replicate n [])) wp.word_initial = none :=
          (writeAll_none_iff _ _).mpr ⟨p, hp, by rwa [hv0]⟩
        rw [this] at h1
        cases h1
      rw [vecFrom, h1]
      constructor
      · intro hs
        intro p hp
        rcases List.mem_append.mp hp with hp1 | hp2
        · exact hes1 p hp1
        · by_contra hge
          have : writeAll (some v1) (wp.continuation.map fun p => (35 :: 35 :: p.1, p.2)) =
              none := by
            refine (writeAll_none_iff _ _).mpr ⟨(35 :: 35 :: p.1, p.2), ?_, ?_⟩
            · exact List.mem_map.mpr ⟨p, hp2, rfl⟩
            · rwa [hlen1]
          rw [this] at hs
          simp at hs
      · intro hall
        cases h2 : writeAll (some v1) (wp.continuation.map fun p => (35 :: 35 :: p.1, p.2)) with
        | none =>
          obtain ⟨q, hq, hlt⟩ := (writeAll_none_iff _ _).mp h2
          obtain ⟨p, hp, hpq⟩ := List.mem_map.mp hq
          have : q.2 = p.2 := by rw [← hpq]
          rw [this, hlen1] at hlt
          exact absurd (hall p (List.mem_append_right _ hp)) hlt
        | some out => simp
  · intro out h
    rw [vecFrom] at h
    cases h1 : writeAll (some (List.replicate n [])) wp.word_initial with
    | none =>
      rw [h1, writeAll_nil] at h
      cases h
    | some v1 =>
      rw [h1] at h
      have hlen1 : v1.length = n := by
        have := writeAll_length _ _ _ h1
        rwa [hv0] at this
      have := writeAll_length _ _ _ h
      rw [this, hlen1]

/-- Witness for C10: the reconstruction of the test vocabulary succeeds. -/
theorem claim_C10_witness :
    (vecFrom fooBarPieces).isSome = true :=
  (claim_C10 fooBarPieces).1.mpr (by decide)

theorem insert_pairwise {b : WordPiecesBuilder} (l : List Nat) (start : Nat)
    (h1 : b.word_initial.Pairwise mapKeyLt) (h2 : b.continuation.Pairwise mapKeyLt) :
    (b.insert l start).word_initial.Pairwise mapKeyLt ∧
    (b.insert l start).continuation.Pairwise mapKeyLt := by
  cases hs : stripHH l with
  | none =>
    simp only [WordPiecesBuilder.insert, hs]
    exact ⟨pairwise_mapInsert _ _ h1, h2⟩
  | some s =>
    simp only [WordPiecesBuilder.insert, hs]
    exact ⟨h1, pairwise_mapInsert _ _ h2⟩

theorem fresh_insert {b : WordPiecesBuilder} {l : List Nat} {rest : List (List Nat)}
    (start : Nat) (hndl : l ∉ rest)
    (hf1 : ∀ l' ∈ l :: rest, stripHH l' = none → l' ∉ b.word_initial.map Prod.fst)
    (hf2 : ∀ l' s', l' ∈ l :: rest → stripHH l' = some s' →
      s' ∉ b.continuation.map Prod.fst) :
    (∀ l' ∈ rest, stripHH l' = none →
      l' ∉ (b.insert l start).word_initial.map Prod.fst) ∧
    (∀ l' s', l' ∈ rest → stripHH l' = some s' →
      s' ∉ (b.insert l start).continuation.map Prod.fst) := by
  cases hs : stripHH l with
  | none =>
    simp only [WordPiecesBuilder.insert, hs]
    constructor
    · intro l' hl' hs' hmem
      rcases keys_mapInsert hmem with rfl | hold
      · exact hndl hl'
      · exact hf1 l' (List.mem_cons_of_mem _ hl') hs' hold
    · intro l' s' hl' hs'
      exact hf2 l' s' (List.mem_cons_of_mem _ hl') hs'
  | some s =>
    simp only [WordPiecesBuilder.insert, hs]
    constructor
    · intro l' hl' hs'
      exact hf1 l' (List.mem_cons_of_mem _ hl') hs'
    · intro l' s' hl' hs' hmem
      rcases keys_mapInsert hmem with rfl | hold
      · have he : l' = l := by
          rw [stripHH_some hs', stripHH_some hs]
        exact hndl (he ▸ hl')
      · exact hf2 l' s' (List.mem_cons_of_mem _ hl') hs' hold

theorem insertAll_mem :
    ∀ (lines : List (List Nat)) (b : WordPiecesBuilder) (start : Nat),
    b.word_initial.Pairwise mapKeyLt → b.continuation.Pairwise mapKeyLt →
    lines.Nodup →
    (∀ l ∈ lines, stripHH l = none → l ∉ b.word_initial.map Prod.fst) →
    (∀ l s, l ∈ lines → stripHH l = some s → s ∉ b.continuation.map Prod.fst) →
    ∀ p : List Nat × Nat,
      (p ∈ (b.insertAll lines start).word_initial ↔
        p ∈ b.word_initial ∨ ∃ j, ∃ hj : j < lines.length,
          lines.get ⟨j, hj⟩ = p.1 ∧ stripHH p.1 = none ∧ p.2 = start + j) ∧
      (p ∈ (b.insertAll lines start).continuation ↔
        p ∈ b.continuation ∨ ∃ j, ∃ hj : j < lines.length,
          stripHH (lines.get ⟨j, hj⟩) = some p.1 ∧ p.2 = start + j) := by
  intro lines
  induction lines with
  | nil =>
    intro b start _ _ _ _ _ p
    constructor <;> simp [WordPiecesBuilder.insertAll]
  | cons l rest ih =>
    intro b start hwf1 hwf2 hnd hf1 hf2 p
    obtain ⟨hndl, hndrest⟩ := List.nodup_cons.mp hnd
    obtain ⟨hfr1, hfr2⟩ := fresh_insert start hndl hf1 hf2
    obtain ⟨hwf1', hwf2'⟩ := insert_pairwise l start hwf1 hwf2
    have hstep : b.insertAll (l :: rest) start = (b.insert l start).insertAll rest (start + 1) :=
      rfl
    have IH := ih (b.insert l start) (start + 1) hwf1' hwf2' hndrest hfr1 hfr2 p
    rw [hstep]
    cases hs : stripHH l with
    | none =>
      have hb1 : (b.insert l start).word_initial = mapInsert b.word_initial l start := by
        simp [WordPiecesBuilder.insert, hs]
      have hb2 : (b.insert l start).continuation = b.continuation := by
        simp [WordPiecesBuilder.insert, hs]
      constructor
      · rw [IH.1, hb1]
        constructor
        · rintro (hmem | ⟨j, hj, hget, hsp, hidx⟩)
          · rcases (mem_mapInsert hwf1 l start p).mp hmem with heq | ⟨hold, _⟩
            · subst heq
              exact Or.inr ⟨0, by simp, rfl, hs, rfl⟩
            · exact Or.inl hold
          · refine Or.inr ⟨j + 1, by simp; omega, hget, hsp, ?_⟩
            rw [hidx]
            omega
        · rintro (hmem | ⟨j, hj, hget, hsp, hidx⟩)
          · refine Or.inl ((mem_mapInsert hwf1 l start p).mpr (Or.inr ⟨hmem, ?_⟩))
            intro hpl
            exact hf1 l (List.mem_cons_self _ _) hs
              (List.mem_map.mpr ⟨p, hmem, hpl⟩)
          · cases j with
            | zero =>
              have hp : p = (l, start) := by
                refine Prod.ext hget.symm ?_
                simpa using hidx
              left
              exact (mem_mapInsert hwf1 l start p).mpr (Or.inl hp)
            | succ j' =>
              have hj' : j' < rest.length := by
                simp at hj
                omega
              refine Or.inr ⟨j', hj', hget, hsp, ?_⟩
              rw [hidx]
              omega
      · rw [IH.2, hb2]
        constructor
        · rintro (hmem | ⟨j, hj, hsp, hidx⟩)
          · exact Or.inl hmem
          · refine Or.inr ⟨j + 1, by simp; omega, hsp, ?_⟩
            rw [hidx]
            omega
        · rintro (hmem | ⟨j, hj, hsp, hidx⟩)
          · exact Or.inl hmem
          · cases j with
            | zero =>
              have : stripHH l = some p.1 := hsp
              rw [hs] at this
              cases this
            | succ j' =>
              have hj' : j' < rest.length := by
                simp at hj
                omega
              refine Or.inr ⟨j', hj', hsp, ?_⟩
              rw [hidx]
              omega
    | some s =>
      have hb1 : (b.insert l start).word_initial = b.word_initial := by
        simp [WordPiecesBuilder.insert, hs]
      have hb2 : (b.insert l start).continuation = mapInsert b.continuation s start := by
        simp [WordPiecesBuilder.insert, hs]
      constructor
      · rw [IH.1, hb1]
        constructor
        · rintro (hmem | ⟨j, hj, hget, hsp, hidx⟩)
          · exact Or.inl hmem
          · refine Or.inr ⟨j + 1, by simp; omega, hget, hsp, ?_⟩
            rw [hidx]
            omega
        · rintro (hmem | ⟨j, hj, hget, hsp, hidx⟩)
          · exact Or.inl hmem
          · cases j with
            | zero =>
              have h1 : l = p.1 := hget
              rw [← h1] at hsp
              rw [hs] at hsp
              cases hsp
            | succ j' =>
              have hj' : j' < rest.length := by
                simp at hj
                omega
              refine Or.inr ⟨j', hj', hget, hsp, ?_⟩
              rw [hidx]
              omega
      · rw [IH.2, hb2]
        constructor
        · rintro (hmem | ⟨j, hj, hsp, hidx⟩)
          · rcases (mem_mapInsert hwf2 s start p).mp hmem with heq | ⟨hold, _⟩
            · subst heq
              exact Or.inr ⟨0, by simp, hs, rfl⟩
            · exact Or.inl hold
          · refine Or.inr ⟨j + 1, by simp; omega, hsp, ?_⟩
            rw [hidx]
            omega
        · rintro (hmem | ⟨j, hj, hsp, hidx⟩)
          · refine Or.inl ((mem_mapInsert hwf2 s start p).mpr (Or.inr ⟨hmem, ?_⟩))
            intro hps
            exact hf2 l s (List.mem_cons_self _ _) hs
              (List.mem_map.mpr ⟨p, hmem, hps⟩)
          · cases j with
            | zero =>
              have h1 : stripHH l = some p.1 := hsp
              rw [hs] at h1
              have h2 : p.1 = s := by
                simp at h1
                exact h1.symm
              have hp : p = (s, start) := by
                refine Prod.ext h2 ?_
                simpa using hidx
              left
              exact (mem_mapInsert hwf2 s start p).mpr (Or.inl hp)
            | succ j' =>
              have hj' : j' < rest.length := by
                simp at hj
                omega
              refine Or.inr ⟨j', hj', hsp, ?_⟩
              rw [hidx]
              omega

theorem insertAll_length :
    ∀ (lines : List (List Nat)) (b : WordPiecesBuilder) (start : Nat),
    lines.Nodup →
    (∀ l ∈ lines, stripHH l = none → l ∉ b.word_initial.map Prod.fst) →
    (∀ l s, l ∈ lines → stripHH l = some s → s ∉ b.continuation.map Prod.fst) →
    (b.insertAll lines start).word_initial.length +
      (b.insertAll lines start).continuation.length =
    b.word_initial.length + b.continuation.length + lines.length := by
  intro lines
  induction lines with
  | nil =>
    intro b start _ _ _
    simp [WordPiecesBuilder.insertAll]
  | cons l rest ih =>
    intro b start hnd hf1 hf2
    obtain ⟨hndl, hndrest⟩ := List.nodup_cons.mp hnd
    obtain ⟨hfr1, hfr2⟩ := fresh_insert start hndl hf1 hf2
    have hstep : b.insertAll (l :: rest) start =
        (b.insert l start).insertAll rest (start + 1) := rfl
    rw [hstep, ih (b.insert l start) (start + 1) hndrest hfr1 hfr2]
    cases hs : stripHH l with
    | none =>
      have hb1 : (b.insert l start).word_initial = mapInsert b.word_initial l start := by
        simp [WordPiecesBuilder.insert, hs]
      have hb2 : (b.insert l start).continuation = b.continuation := by
        simp [WordPiecesBuilder.insert, hs]
      rw [hb1, hb2, length_mapInsert_of_not_mem start (hf1 l (List.mem_cons_self _ _) hs)]
      simp
      omega
    | some s =>
      have hb1 : (b.insert l start).word_initial = b.word_initial := by
        simp [WordPiecesBuilder.insert, hs]
      have hb2 : (b.insert l start).continuation = mapInsert b.continuation s start := by
        simp [WordPiecesBuilder.insert, hs]
      rw [hb1, hb2, length_mapInsert_of_not_mem start (hf2 l s (List.mem_cons_self _ _) hs)]
      simp
      omega

theorem writeAll_append : ∀ (es1 es2 : List (List Nat × Nat)) (o : Option (List (List Nat))),
    writeAll (writeAll o es1) es2 = writeAll o (es1 ++ es2) := by
  intro es1
  induction es1 with
  | nil =>
    intro es2 o
    cases o with
    | none => rw [writeAll_nil, writeAll_nil, writeAll_nil]
    | some v => rfl
  | cons p rest ih =>
    intro es2 o
    obtain ⟨k, i⟩ := p
    cases o with
    | none => rw [writeAll_nil, writeAll_nil, writeAll_nil]
    | some v =>
      show writeAll (writeAll (setAt v i k) rest) es2 = writeAll (setAt v i k) (rest ++ es2)
      exact ih es2 (setAt v i k)

theorem writeAll_distinct : ∀ (es : List (List Nat × Nat)) (v : List (List Nat)),
    (∀ p ∈ es, p.2 < v.length) → (es.map Prod.snd).Nodup →
    ∃ out, writeAll (some v) es = some out ∧ out.length = v.length ∧
      (∀ p ∈ es, out[p.2]? = some p.1) ∧
      (∀ i, i ∉ es.map Prod.snd → out[i]? = v[i]?) := by
  intro es
  induction es with
  | nil =>
    intro v _ _
    exact ⟨v, rfl, rfl, by simp, fun i _ => rfl⟩
  | cons p rest ih =>
    intro v hlt hnd
    obtain ⟨k, i⟩ := p
    rw [List.map_cons] at hnd
    obtain ⟨hhead, hndrest⟩ := List.nodup_cons.mp hnd
    have hi : i < v.length := hlt (k, i) (List.mem_cons_self _ _)
    have hlt' : ∀ p ∈ rest, p.2 < (v.set i k).length := by
      intro q hq
      rw [List.length_set]
      exact hlt q (List.mem_cons_of_mem _ hq)
    obtain ⟨out, hw, hlen, hmem, hother⟩ := ih (v.set i k) hlt' hndrest
    refine ⟨out, ?_, by rw [hlen, List.length_set], ?_, ?_⟩
    · show writeAll (setAt v i k) rest = some out
      rw [setAt, if_pos hi]
      exact hw
    · intro q hq
      rcases List.mem_cons.mp hq with rfl | hq'
      · have : out[i]? = (v.set i k)[i]? := hother i hhead
        rw [this, List.getElem?_set_self hi]
      · exact hmem q hq'
    · intro j hj
      have hj1 : j ≠ i := by
        intro he
        exact hj (by simp [he])
      have hj2 : j ∉ rest.map Prod.snd := by
        intro he
        exact hj (by simp [he])
      rw [hother j hj2, List.getElem?_set_ne (fun he => hj1 he.symm)]

theorem insertAll_pairwise : ∀ (lines : List (List Nat)) (b : WordPiecesBuilder) (start : Nat),
    b.word_initial.Pairwise mapKeyLt → b.continuation.Pairwise mapKeyLt →
    (b.insertAll lines start).word_initial.Pairwise mapKeyLt ∧
    (b.insertAll lines start).continuation.Pairwise mapKeyLt := by
  intro lines
  induction lines with
  | nil =>
    intro b start h1 h2
    exact ⟨h1, h2⟩
  | cons l rest ih =>
    intro b start h1 h2
    obtain ⟨h1', h2'⟩ := insert_pairwise l start h1 h2
    exact ih (b.insert l start) (start + 1) h1' h2'

theorem writeAll_perm (lines : List (List Nat)) (es : List (List Nat × Nat))
    (hall : ∀ p ∈ es, p.2 < lines.length)
    (hnd : (es.map Prod.snd).Nodup)
    (hcover : ∀ i, ∀ hi : i < lines.length, ∃ k, (k, i) ∈ es ∧ k = lines.get ⟨i, hi⟩) :
    writeAll (some (List.replicate lines.length [])) es = some lines := by
  obtain ⟨out, hw, hlen, hmem, _⟩ := writeAll_distinct es (List.replicate lines.length [])
    (by simpa using hall) hnd
  rw [hw]
  congr 1
  apply List.ext_getElem?_iff.mpr
  intro i
  by_cases hi : i < lines.length
  · obtain ⟨k, hk, hkeq⟩ := hcover i hi
    have h1 : out[i]? = some k := by
      have := hmem (k, i) hk
      simpa using this
    rw [h1, hkeq, List.getElem?_eq_getElem hi]
    simp
  · have h1 : out[i]? = none := by
      apply List.getElem?_eq_none
      rw [hlen, List.length_replicate]
      omega
    have h2 : lines[i]? = none := by
      apply List.getElem?_eq_none
      omega
    rw [h1, h2]

/-- The round-trip claim, amended: for every DUPLICATE-FREE sequence of
vocabulary lines, building the pieces via the line-based constructor and
reconstructing the vector via the `Vec<String>` conversion returns exactly
the original line sequence, with `##` re-attached to continuation pieces. -/
theorem claim_C5 (lines : List (List Nat)) (hnd : lines.Nodup) :
    vecFrom (WordPieces.fromLines lines) = some lines := by
  have hwfe1 : (WordPiecesBuilder.empty.word_initial).Pairwise mapKeyLt := List.Pairwise.nil
  have hwfe2 : (WordPiecesBuilder.empty.continuation).Pairwise mapKeyLt := List.Pairwise.nil
  have hfe1 : ∀ l ∈ lines, stripHH l = none →
      l ∉ WordPiecesBuilder.empty.word_initial.map Prod.fst := by
    intro l _ _ h
    simp [WordPiecesBuilder.empty] at h
  have hfe2 : ∀ l s, l ∈ lines → stripHH l = some s →
      s ∉ WordPiecesBuilder.empty.continuation.map Prod.fst := by
    intro l s _ _ h
    simp [WordPiecesBuilder.empty] at h
  have hmem := insertAll_mem lines WordPiecesBuilder.empty 0 hwfe1 hwfe2 hnd hfe1 hfe2
  obtain ⟨hpw1, hpw2⟩ := insertAll_pairwise lines WordPiecesBuilder.empty 0 hwfe1 hwfe2
  have hwi : ∀ p : List Nat × Nat,
      p ∈ (WordPiecesBuilder.empty.insertAll lines 0).word_initial ↔
        ∃ j, ∃ hj : j < lines.length,
          lines.get ⟨j, hj⟩ = p.1 ∧ stripHH p.1 = none ∧ p.2 = j := by
    intro p
    rw [(hmem p).1]
    simp [WordPiecesBuilder.empty]
  have hcont : ∀ p : List Nat × Nat,
      p ∈ (WordPiecesBuilder.empty.insertAll lines 0).continuation ↔
        ∃ j, ∃ hj : j < lines.length,
          stripHH (lines.get ⟨j, hj⟩) = some p.1 ∧ p.2 = j := by
    intro p
    rw [(hmem p).2]
    simp [WordPiecesBuilder.empty]
  have hlen : (WordPiecesBuilder.empty.insertAll lines 0).word_initial.length +
      (WordPiecesBuilder.empty.insertAll lines 0).continuation.length = lines.length := by
    have h := insertAll_length lines WordPiecesBuilder.empty 0 hnd hfe1 hfe2
    simpa [WordPiecesBuilder.empty] using h
  have hvec : vecFrom (WordPieces.fromLines lines) =
      writeAll (some (List.replicate
        ((WordPiecesBuilder.empty.insertAll lines 0).word_initial.length +
          (WordPiecesBuilder.empty.insertAll lines 0).continuation.length) []))
        ((WordPiecesBuilder.empty.insertAll lines 0).word_initial ++
          ((WordPiecesBuilder.empty.insertAll lines 0).continuation.map
            fun p => (35 :: 35 :: p.1, p.2))) := by
    rw [vecFrom, writeAll_append]
    rfl
  rw [hvec, hlen]
  apply writeAll_perm
  · intro p hp
    rcases List.mem_append.mp hp with h1 | h2
    · obtain ⟨j, hj, _, _, hpj⟩ := (hwi p).mp h1
      omega
    · obtain ⟨q, hq, rfl⟩ := List.mem_map.mp h2
      obtain ⟨j, hj, _, hpj⟩ := (hcont q).mp hq
      show q.2 < lines.length
      omega
  · rw [List.map_append, List.map_map]
    have hcomp :
        ((WordPiecesBuilder.empty.insertAll lines 0).continuation.map
          (Prod.snd ∘ fun p : List Nat × Nat => ((35 :: 35 :: p.1, p.2) : List Nat × Nat))) =
        (WordPiecesBuilder.empty.insertAll lines 0).continuation.map Prod.snd := rfl
    rw [hcomp]
    apply List.Nodup.append
    · have hp2 : ((WordPiecesBuilder.empty.insertAll lines 0).word_initial).Pairwise
          (fun p q : List Nat × Nat => p.2 ≠ q.2) := by
        refine List.Pairwise.imp_of_mem ?_ hpw1
        intro a b ha hb hlt heq
        obtain ⟨j, hj, hga, _, hja⟩ := (hwi a).mp ha
        obtain ⟨j', hj', hgb, _, hjb⟩ := (hwi b).mp hb
        have hjj : j = j' := by omega
        subst hjj
        have hgb' : lines.get ⟨j, hj⟩ = b.1 := hgb
        have hab : a.1 = b.1 := by rw [← hga, ← hgb']
        exact bytesLt_ne hlt hab
      exact List.Pairwise.map _ (fun a b h => h) hp2
    · have hp2 : ((WordPiecesBuilder.empty.insertAll lines 0).continuation).Pairwise
          (fun p q : List Nat × Nat => p.2 ≠ q.2) := by
        refine List.Pairwise.imp_of_mem ?_ hpw2
        intro a b ha hb hlt heq
        obtain ⟨j, hj, hsa, hja⟩ := (hcont a).mp ha
        obtain ⟨j', hj', hsb, hjb⟩ := (hcont b).mp hb
        have hjj : j = j' := by omega
        subst hjj
        have hsb' : stripHH (lines.get ⟨j, hj⟩) = some b.1 := hsb
        rw [hsa] at hsb'
        have hab : a.1 = b.1 := by
          simpa using hsb'
        exact bytesLt_ne hlt hab
      exact List.Pairwise.map _ (fun a b h => h) hp2
    · intro x hx1 hx2
      obtain ⟨a, ha, hxa⟩ := List.mem_map.mp hx1
      obtain ⟨b, hb, hxb⟩ := List.mem_map.mp hx2
      obtain ⟨j, hj, hga, hsa, hja⟩ := (hwi a).mp ha
      obtain ⟨j', hj', hsb, hjb⟩ := (hcont b).mp hb
      have hjj : j = j' := by omega
      subst hjj
      have hsb' : stripHH (lines.get ⟨j, hj⟩) = some b.1 := hsb
      rw [hga] at hsb'
      rw [hsa] at hsb'
      cases hsb'
  · intro i hi
    cases hsl : stripHH (lines.get ⟨i, hi⟩) with
    | none =>
      refine ⟨lines.get ⟨i, hi⟩, List.mem_append_left _ ?_, rfl⟩
      exact (hwi _).mpr ⟨i, hi, rfl, hsl, rfl⟩
    | some s =>
      refine ⟨35 :: 35 :: s, List.mem_append_right _ ?_, (stripHH_some hsl).symm⟩
      exact List.mem_map.mpr ⟨(s, i), (hcont _).mpr ⟨i, hi, hsl, rfl⟩, rfl⟩

/-- Counterexample to C5 as stated: for the duplicated line sequence
`["a", "a"]` the second insert overwrites the first index, the allocated
vector has length 1, and the write at index 1 panics — the reconstruction
does not return the original lines. -/
theorem claim_C5_cex :
    ¬ vecFrom (WordPieces.fromLines [[97], [97]]) = some [[97], [97]] := by decide

/-- Witness for the amended C5 at the lines `["a", "##a"]`. -/
theorem claim_C5_witness :
    ([[97], [35, 35, 97]] : List (List Nat)).Nodup ∧
      vecFrom (WordPieces.fromLines [[97], [35, 35, 97]]) = some [[97], [35, 35, 97]] :=
  ⟨by decide, claim_C5 [[97], [35, 35, 97]] (by decide)⟩

/-! ### UTF-8: pieces and words are valid byte strings, cuts sit on
code-point boundaries -/

theorem utf8EncodeChar_ne_nil (c : Char) : utf8EncodeChar c ≠ [] := by
  unfold utf8EncodeChar
  split_ifs <;> simp

theorem utf8_class (c : Char) : ∃ b t, utf8EncodeChar c = b :: t ∧
    ((t.length = 0 ∧ b < 128) ∨ (t.length = 1 ∧ 192 ≤ b ∧ b < 224) ∨
     (t.length = 2 ∧ 224 ≤ b ∧ b < 240) ∨ (t.length = 3 ∧ 240 ≤ b)) := by
  unfold utf8EncodeChar
  split_ifs with h1 h2 h3
  · exact ⟨c.toNat, [], rfl, Or.inl ⟨rfl, h1⟩⟩
  · exact ⟨192 + c.toNat / 64, [128 + c.toNat % 64], rfl,
      Or.inr (Or.inl ⟨rfl, by omega, by omega⟩)⟩
  · exact ⟨224 + c.toNat / 4096, [128 + c.toNat / 64 % 64, 128 + c.toNat % 64], rfl,
      Or.inr (Or.inr (Or.inl ⟨rfl, by omega, by omega⟩))⟩
  · exact ⟨240 + c.toNat / 262144,
      [128 + c.toNat / 4096 % 64, 128 + c.toNat / 64 % 64, 128 + c.toNat % 64], rfl,
      Or.inr (Or.inr (Or.inr ⟨rfl, by omega⟩))⟩

theorem utf8EncodeChar_inj {c1 c2 : Char} (h : utf8EncodeChar c1 = utf8EncodeChar c2) :
    c1 = c2 := by
  have hv : c1.toNat = c2.toNat := by
    unfold utf8EncodeChar at h
    split_ifs at h <;> simp_all <;> omega
  rw [← Char.ofNat_toNat c1, hv, Char.ofNat_toNat c2]

theorem utf8_prefix_code {c1 c2 : Char} {r1 r2 : List Nat}
    (h : utf8EncodeChar c1 ++ r1 = utf8EncodeChar c2 ++ r2) : c1 = c2 ∧ r1 = r2 := by
  obtain ⟨b1, t1, he1, hc1⟩ := utf8_class c1
  obtain ⟨b2, t2, he2, hc2⟩ := utf8_class c2
  rw [he1, he2] at h
  simp only [List.cons_append, List.cons.injEq] at h
  obtain ⟨hb, ht⟩ := h
  have hlen : t1.length = t2.length := by
    subst hb
    rcases hc1 with ⟨hl, hr⟩ | ⟨hl, hr1, hr2⟩ | ⟨hl, hr1, hr2⟩ | ⟨hl, hr⟩ <;>
      rcases hc2 with ⟨hl', hr'⟩ | ⟨hl', hr1', hr2'⟩ | ⟨hl', hr1', hr2'⟩ | ⟨hl', hr'⟩ <;>
      omega
  obtain ⟨ht12, hr12⟩ := List.append_inj ht hlen
  have henc : utf8EncodeChar c1 = utf8EncodeChar c2 := by rw [he1, he2, hb, ht12]
  exact ⟨utf8EncodeChar_inj henc, hr12⟩

theorem utf8Encode_nil : utf8Encode [] = [] := rfl

theorem utf8Encode_cons (c : Char) (cs : List Char) :
    utf8Encode (c :: cs) = utf8EncodeChar c ++ utf8Encode cs := by
  simp [utf8Encode]

theorem utf8Encode_append (a b : List Char) :
    utf8Encode (a ++ b) = utf8Encode a ++ utf8Encode b := by
  simp [utf8Encode]

theorem utf8Valid_append {a b : List Nat} (ha : Utf8Valid a) (hb : Utf8Valid b) :
    Utf8Valid (a ++ b) := by
  obtain ⟨x, rfl⟩ := ha
  obtain ⟨y, rfl⟩ := hb
  exact ⟨x ++ y, (utf8Encode_append x y).symm⟩

theorem utf8Encode_take_of_prefix : ∀ (ds cs : List Char),
    utf8Encode ds <+: utf8Encode cs → ∃ m, ds = cs.take m := by
  intro ds
  induction ds with
  | nil =>
    intro cs _
    exact ⟨0, rfl⟩
  | cons d ds' ih =>
    intro cs hpre
    cases cs with
    | nil =>
      exfalso
      have h0 : utf8Encode (d :: ds') = [] := List.prefix_nil.mp hpre
      rw [utf8Encode_cons] at h0
      exact utf8EncodeChar_ne_nil d (List.append_eq_nil.mp h0).1
    | cons c cs' =>
      obtain ⟨t, ht⟩ := hpre
      rw [utf8Encode_cons, utf8Encode_cons, List.append_assoc] at ht
      obtain ⟨hdc, hrest⟩ := utf8_prefix_code ht
      subst hdc
      obtain ⟨m, hm⟩ := ih cs' ⟨t, hrest⟩
      exact ⟨m + 1, by rw [List.take_succ_cons, ← hm]⟩

theorem valid_prefix_boundary {v : List Nat} {cs : List Char}
    (hval : Utf8Valid v) (hpre : v <+: utf8Encode cs) :
    ∃ m, v = utf8Encode (cs.take m) := by
  obtain ⟨ds, rfl⟩ := hval
  obtain ⟨m, hm⟩ := utf8Encode_take_of_prefix ds cs hpre
  exact ⟨m, by rw [hm]⟩

theorem longestPrefixLen_found {t : Trie} {w : List Nat} {len i : Nat}
    (hlen : len ≠ 0) (h : longestPrefixLen t w = (len, i)) :
    t.findKey (w.take len) = some i := by
  rcases loop_spec w t 0 (0, 0) with ⟨heq, _⟩ | ⟨j, v, _, _, hsome, heq, _⟩
  · rw [longestPrefixLen, heq] at h
    exact absurd (congrArg Prod.fst h).symm hlen
  · rw [longestPrefixLen, heq] at h
    have hj : j = len := by
      have := congrArg Prod.fst h
      simpa using this
    have hv : v = i := congrArg Prod.snd h
    rw [← hj, ← hv]
    exact hsome

theorem collectN_keys : ∀ (fuel : Nat) (it : WordPieceIter) (res : List WordPiece),
    WordPieceIter.collectN fuel it = some res →
    ∀ p i, WordPiece.found p i ∈ res →
      p ∈ it.wordPieces.word_initial.map Prod.fst ∨
      p ∈ it.wordPieces.continuation.map Prod.fst := by
  intro fuel
  induction fuel with
  | zero => intro it res h; simp [WordPieceIter.collectN] at h
  | succ n ih =>
    intro it res h p i hp
    rcases collectN_succ_cases h with ⟨_, rfl⟩ | ⟨q, it', res', hn, hc, rfl⟩
    · simp at hp
    · obtain ⟨_, hwp', _, hcase⟩ := next_yield_cases hn
      rcases List.mem_cons.mp hp with he | hmem
      · rcases hcase with ⟨rfl, _, _⟩ | ⟨len, k, hlen, hlpl, rfl, _⟩
        · cases he
        · cases he
          have hfind := longestPrefixLen_found hlen hlpl
          have hkey := findKey_ofList_key hfind
          by_cases hi : it.initial = true
          · rw [if_pos hi] at hkey
            exact Or.inl hkey
          · rw [if_neg hi] at hkey
            exact Or.inr hkey
      · have := ih it' res' hc p i hmem
        rw [hwp'] at this
        exact this

theorem foundConcat_take_valid : ∀ (res : List WordPiece),
    (∀ p i, WordPiece.found p i ∈ res → Utf8Valid p) →
    ∀ j, Utf8Valid (foundConcat (res.take j)) := by
  intro res
  induction res with
  | nil =>
    intro _ j
    cases j <;> exact ⟨[], rfl⟩
  | cons q rest ih =>
    intro hval j
    cases j with
    | zero => exact ⟨[], rfl⟩
    | succ j' =>
      have hrest : ∀ p i, WordPiece.found p i ∈ rest → Utf8Valid p := fun p i hp =>
        hval p i (List.mem_cons_of_mem _ hp)
      cases q with
      | missing =>
        show Utf8Valid (foundConcat (rest.take j'))
        exact ih hrest j'
      | found p i =>
        have hp : Utf8Valid p := hval p i (List.mem_cons_self _ _)
        show Utf8Valid (p ++ foundConcat (rest.take j'))
        exact utf8Valid_append hp (ih hrest j')

/-- Claim C6: when every vocabulary piece is valid UTF-8 (every Rust
`String` is) and the word is the UTF-8 encoding of a sequence of code
points, every `Found` piece of a split is itself valid UTF-8, every cut —
the start and end offsets of each emitted piece and the start of the
remaining suffix, reached through any partial concatenation of the `Found`
texts — is the encoding of a code-point-aligned part of the word, and any
vocabulary key that byte-matches a prefix of the word (a candidate match
boundary) ends on a code-point boundary. -/
theorem claim_C6 (wp : WordPieces) (cs : List Char) (res : List WordPiece)
    (hkeys : ∀ k v, ((k, v) ∈ wp.word_initial ∨ (k, v) ∈ wp.continuation) → Utf8Valid k)
    (h : (wp.split (utf8Encode cs)).collect = some res) :
    (∀ p i, WordPiece.found p i ∈ res → Utf8Valid p) ∧
    (∀ j, ∃ m, foundConcat (res.take j) = utf8Encode (cs.take m)) ∧
    (∀ k v, ((k, v) ∈ wp.word_initial ∨ (k, v) ∈ wp.continuation) →
      k <+: utf8Encode cs → ∃ m, k = utf8Encode (cs.take m)) := by
  rw [WordPieceIter.collect] at h
  have hkeys' : ∀ k, k ∈ wp.word_initial.map Prod.fst ∨ k ∈ wp.continuation.map Prod.fst →
      Utf8Valid k := by
    intro k hk
    rcases hk with hk | hk
    · obtain ⟨q, hq, rfl⟩ := List.mem_map.mp hk
      exact hkeys q.1 q.2 (Or.inl hq)
    · obtain ⟨q, hq, rfl⟩ := List.mem_map.mp hk
      exact hkeys q.1 q.2 (Or.inr hq)
  have hvalid : ∀ p i, WordPiece.found p i ∈ res → Utf8Valid p := by
    intro p i hp
    exact hkeys' p (collectN_keys _ _ _ h p i hp)
  refine ⟨hvalid, ?_, ?_⟩
  · intro j
    have hpre : foundConcat (res.take j) <+: utf8Encode cs := (collectN_concat _ _ _ h).2.2 j
    exact valid_prefix_boundary (foundConcat_take_valid res hvalid j) hpre
  · intro k v hk hpre
    exact valid_prefix_boundary (hkeys k v hk) hpre

/-- Witness for C6 at the `"voor"` vocabulary and the word `"voorman"`. -/
theorem claim_C6_witness :
    (∀ p i, WordPiece.found p i ∈
        [WordPiece.found [118, 111, 111, 114] 0, WordPiece.missing] → Utf8Valid p) ∧
    (∀ j, ∃ m, foundConcat
        (([WordPiece.found [118, 111, 111, 114] 0, WordPiece.missing]).take j) =
      utf8Encode ((['v', 'o', 'o', 'r', 'm', 'a', 'n'] : List Char).take m)) ∧
    (∀ k v, ((k, v) ∈ voorPieces.word_initial ∨ (k, v) ∈ voorPieces.continuation) →
      k <+: utf8Encode ['v', 'o', 'o', 'r', 'm', 'a', 'n'] →
      ∃ m, k = utf8Encode ((['v', 'o', 'o', 'r', 'm', 'a', 'n'] : List Char).take m)) :=
  claim_C6 voorPieces ['v', 'o', 'o', 'r', 'm', 'a', 'n'] _
    (fun k v hkv => by
      rcases hkv with hkv | hkv
      · simp [voorPieces] at hkv
        exact ⟨['v', 'o', 'o', 'r'], by rw [hkv.1]; decide⟩
      · simp [voorPieces] at hkv
        exact ⟨['t', 'i', 'e'], by rw [hkv.1]; decide⟩)
    (by decide)
